import Mathlib

/-!
# Verification of the live audio segmenter, player worklet and reconnect backoff

Shallow embedding of the core stream-processing code of the repository:

* `apps/server/src/lib/transcription-utils.ts` — transcript extraction,
  sentence parsing, generation-complete detection;
* `apps/server/src/lib/live-segmenter.ts` — the `LiveSegmenter` class;
* `apps/server/src/lib/backoff.ts` and `gemini-live.ts` — exponential backoff
  and retryable-close classification;
* the caption extractor (`extractCaption` / `collectTextCandidates` /
  `selectBestCandidate` / `computeCandidateScore`) of the client;
* the epoch-acceptance and flush logic of the `Pcm24PlayerProcessor`
  audio worklet.

Modelling conventions:
* JS values reaching the walkers are modelled by the tree type `JsonValue`.
  The identity-based `seen` sets of the walkers only fire on shared or cyclic
  object references, which a tree cannot express; on tree-shaped values a
  revisit returns the same result it returned the first time, so the `seen`
  sets are dropped from the embedding.  The depth caps are kept.
* Node `Buffer`s are lists of bytes (`List Nat`); `readInt16LE` is fallible
  exactly where Node throws `ERR_OUT_OF_RANGE`, so byte-reading code runs in
  `Except Unit`.
* JS float arithmetic in `bytesToMillis` and the silence-sample computation is
  modelled by exact rational arithmetic (`Math.round` = half-up, `Math.floor`
  = integer division), which agrees with IEEE doubles at the magnitudes the
  program uses.
* JS `string.length` counts UTF-16 code units; Lean counts code points.  The
  two agree on all text the claims mention (no surrogate pairs).
-/

namespace Denwa

/-! ## JSON-like payload values -/

/-- Tagged model of the JS values the payload walkers receive. -/
inductive JsonValue where
  | null : JsonValue
  | bool (b : Bool) : JsonValue
  | num (n : Int) : JsonValue
  | str (s : String) : JsonValue
  | arr (xs : List JsonValue) : JsonValue
  | obj (fields : List (String × JsonValue)) : JsonValue

/-- JS object property lookup (`value[key]`).  Object keys are unique in JS,
so the field list is assumed key-unique and the first binding is returned. -/
def JsonValue.lookup (v : JsonValue) (key : String) : Option JsonValue :=
  match v with
  | .obj fields =>
    match fields.find? (fun kv => kv.1 = key) with
    | some kv => some kv.2
    | none => none
  | _ => none

/-- `isObject` of `transcription-utils.ts`: a non-null object that is not an
array. -/
def isObjectStrict : JsonValue → Bool
  | .obj _ => true
  | _ => false

/-! ## String helpers -/

/-- The whitespace characters removed by JS `String.prototype.trim` and
matched by `/\s/` (the code points that occur in practice). -/
def isJsSpace (c : Char) : Bool :=
  c = ' ' ∨ c = '\t' ∨ c = '\n' ∨ c = '\r' ∨ c = '\x0b' ∨ c = '\x0c' ∨
    c = ' ' ∨ c = '　' ∨ c = ' ' ∨ c = ' ' ∨ c = '﻿'

/-- JS `String.prototype.trim`. -/
def jsTrim (s : String) : String :=
  ⟨((s.data.dropWhile isJsSpace).reverse.dropWhile isJsSpace).reverse⟩

/-- `TERMINAL_CHARACTERS` — sentence-terminal characters shared by
`transcription-utils.ts` and the caption helpers. -/
def isTerminalChar (c : Char) : Bool :=
  c = '。' ∨ c = '．' ∨ c = '.' ∨ c = '？' ∨ c = '?' ∨ c = '！' ∨ c = '!' ∨ c = '…'

/-! ## `transcription-utils.ts` -/

/-- Result of `parseSentences`.  (`partial` is renamed `partialText`.) -/
structure SentenceParseResult where
  complete : List String
  partialText : String
deriving Repr, DecidableEq

/-- Character loop of `parseSentences`: accumulate into `buffer`; a terminal
character closes the buffer, pushing its trimmed content when non-empty. -/
def parseSentencesLoop : List Char → List Char → List String
  | [], _buffer => []
  | c :: rest, buffer =>
    let buffer := buffer ++ [c]
    if isTerminalChar c then
      let trimmed := jsTrim ⟨buffer⟩
      if trimmed.length > 0 then trimmed :: parseSentencesLoop rest []
      else parseSentencesLoop rest []
    else parseSentencesLoop rest buffer

/-- Trailing buffer left by the loop of `parseSentences`. -/
def parseSentencesRest : List Char → List Char → List Char
  | [], buffer => buffer
  | c :: rest, buffer =>
    let buffer := buffer ++ [c]
    if isTerminalChar c then parseSentencesRest rest []
    else parseSentencesRest rest buffer

/-- `parseSentences` of `transcription-utils.ts`. -/
def parseSentences (source : String) : SentenceParseResult :=
  { complete := parseSentencesLoop source.data []
    partialText := jsTrim ⟨parseSentencesRest source.data []⟩ }

/-- `getNestedString`: follow a key path through objects, returning the value
only when it is a string. -/
def getNestedString (source : JsonValue) (path : List String) : Option String :=
  match path with
  | [] => match source with
          | .str s => some s
          | _ => none
  | key :: rest =>
    match source.lookup key with
    | some child => getNestedString child rest
    | none => none

/-- The `outputTranscription` harvest step of `findOutputTranscriptionText`:
for the keys `outputTranscription` / `output_transcription` in iteration
order, return the `text` field when it is a string with non-empty trim. -/
def harvestOutputTranscription (v : JsonValue) : Option String :=
  let tryKey := fun (key : String) =>
    match v.lookup key with
    | some container =>
      if isObjectStrict container then
        match container.lookup "text" with
        | some (.str t) => if (jsTrim t).length > 0 then some t else none
        | _ => none
      else none
    | none => none
  match tryKey "outputTranscription" with
  | some t => some t
  | none => tryKey "output_transcription"

/-- First non-`none` result of `f` over a list (the `if (found) return found`
pattern; every candidate the walker can return has non-empty trim, hence is a
truthy string). -/
def firstSome {α β : Type} (f : α → Option β) : List α → Option β
  | [] => none
  | x :: xs =>
    match f x with
    | some r => some r
    | none => firstSome f xs

/-- `MAX_WALK_DEPTH` of `transcription-utils.ts`. -/
def MAX_WALK_DEPTH : Nat := 12

/-- Recursion core of `findOutputTranscriptionText`.  The source recurses on
a growing `depth` cut off at `MAX_WALK_DEPTH`; the embedding counts the
remaining budget `MAX_WALK_DEPTH + 1 − depth` down to zero instead, so the
recursion is structural (and kernel-computable). -/
def findOutputTranscriptionTextGo : Nat → JsonValue → Option String
  | 0, _ => none
  | budget + 1, v =>
    match v with
    | .str _ => none
    | .arr xs => firstSome (fun entry => findOutputTranscriptionTextGo budget entry) xs
    | .obj fields =>
      match harvestOutputTranscription (.obj fields) with
      | some t => some t
      | none =>
        let recurseKey := fun (key : String) =>
          match (JsonValue.obj fields).lookup key with
          | some child => findOutputTranscriptionTextGo budget child
          | none => none
        match recurseKey "modelTurn" with
        | some t => some t
        | none =>
        match recurseKey "model_turn" with
        | some t => some t
        | none =>
        match recurseKey "serverContent" with
        | some t => some t
        | none =>
        match recurseKey "server_content" with
        | some t => some t
        | none =>
          firstSome (fun kv => findOutputTranscriptionTextGo budget kv.2) fields
    | _ => none

/-- `findOutputTranscriptionText`: cycle-safe, depth-capped search for a
non-empty `outputTranscription.text` (`depth > MAX_WALK_DEPTH` stops, i.e.
budget `MAX_WALK_DEPTH + 1 − depth` is zero). -/
def findOutputTranscriptionText (v : JsonValue) (depth : Nat) : Option String :=
  findOutputTranscriptionTextGo (MAX_WALK_DEPTH + 1 - depth) v

/-- `extractTranscript`: direct `serverContent.outputTranscription.text` when
truthy (a non-empty string), otherwise the depth-capped walk. -/
def extractTranscript (payload : JsonValue) : Option String :=
  if !isObjectStrict payload then none
  else
    match getNestedString payload ["serverContent", "outputTranscription", "text"] with
    | some direct => if direct = "" then findOutputTranscriptionText payload 0 else some direct
    | none => findOutputTranscriptionText payload 0

/-- `value === true` on an optional JS property. -/
def isTrueFlag : Option JsonValue → Bool
  | some (.bool true) => true
  | _ => false

/-- `isGenerationComplete` of `transcription-utils.ts`. -/
def isGenerationComplete (payload : JsonValue) : Bool :=
  if !isObjectStrict payload then false
  else if isTrueFlag (payload.lookup "generationComplete") then true
  else if isTrueFlag (payload.lookup "turnComplete") then true
  else
    let fromServerContent :=
      match payload.lookup "serverContent" with
      | some sc =>
        isObjectStrict sc &&
          (isTrueFlag (sc.lookup "generationComplete") ||
           isTrueFlag (sc.lookup "turnComplete"))
      | none => false
    if fromServerContent then true
    else
      let event :=
        match payload.lookup "event" with
        | some (.str s) => s.toLower
        | _ => ""
      event = "finish" ∨ event = "completed" ∨ event = "turncomplete"

/-! ## `live-segmenter.ts` — data model

`Buffer`s are byte lists.  The segmenter state carries the constructor
configuration (`sampleRate`, `silenceThreshold`, `minSilenceSamples`,
`maxPendingSegments`) alongside the mutable fields.  Two fields of the class
are not modelled: `lastCandidateDiagnostics` (only read by
`getDiagnosticsSummary`) and `partialLastUpdatedAt` (written but never read
in this version of the class — the idle-commit constants
`PARTIAL_COMMIT_DELAY_MS` / `MIN_PARTIAL_TEXT_LENGTH` are declared and
unused).  `segmentId` is modelled by its deterministic components
(`turnId`, sequence number); the random 6-byte hex suffix and the base64
rendering of the audio are not modelled (the `audio` field keeps the bytes).
-/

/-- Node `Buffer` as a byte list. -/
abbrev ByteBuf : Type := List Nat

/-- `Buffer.readInt16LE(offset)`: little-endian signed 16-bit read; Node
throws `ERR_OUT_OF_RANGE` when fewer than two bytes remain, modelled by
`Except.error`. -/
def readInt16LE (buf : ByteBuf) (offset : Nat) : Except Unit Int :=
  match (List.drop offset buf) with
  | b0 :: b1 :: _ =>
    let v : Nat := b0 % 256 + 256 * (b1 % 256)
    .ok (if v ≥ 32768 then (v : Int) - 65536 else (v : Int))
  | _ => .error ()

/-- `bytesToMillis`: `Math.round((bytes/2 / sampleRate) * 1000)` in exact
rational arithmetic: round-half-up of `500·bytes / sampleRate`. -/
def bytesToMillis (bytes sampleRate : Nat) : Nat :=
  (1000 * bytes + sampleRate) / (2 * sampleRate)

/-- `MIN_SEGMENT_DURATION_MS`. -/
def MIN_SEGMENT_DURATION_MS : Nat := 300

/-- `SEGMENT_COMMIT` event payload (deterministic fields). -/
structure SegmentCommitMsg where
  turnId : Nat
  index : Nat
  text : String
  audio : ByteBuf
  durationMs : Nat
  nominalDurationMs : Nat
  audioBytes : Nat
  audioSamples : Nat
  /-- The post-increment `segmentSequence` embedded in `segmentId`. -/
  segSeq : Nat
deriving DecidableEq

/-- `TURN_COMMIT` event payload. -/
structure TurnCommitMsg where
  turnId : Nat
  finalText : String
  segmentCount : Nat
deriving DecidableEq

/-- A segmenter output event. -/
inductive SegEvent where
  | seg (m : SegmentCommitMsg) : SegEvent
  | turn (m : TurnCommitMsg) : SegEvent
deriving DecidableEq

/-- `true` on `SEGMENT_COMMIT` events. -/
def SegEvent.isSeg : SegEvent → Bool
  | .seg _ => true
  | .turn _ => false

/-- `true` on `TURN_COMMIT` events. -/
def SegEvent.isTurn : SegEvent → Bool
  | .seg _ => false
  | .turn _ => true

/-- The `LiveSegmenter` instance state. -/
structure SegState where
  sampleRate : Nat
  silenceThreshold : Int
  minSilenceSamples : Nat
  maxPendingSegments : Nat
  pendingAudio : List ByteBuf
  segmentedAudioQueue : List ByteBuf
  pendingTexts : List String
  currentTranscript : String
  currentPartialText : String
  silenceRunSamples : Nat
  committedCount : Nat
  enqueuedCompleteCount : Nat
  partialCommittedLength : Nat
  turnId : Nat
  segmentSequence : Nat
deriving DecidableEq

/-- The `LiveSegmenter` constructor: `minSilenceSamples =
max(1, floor((silenceDurationMs/1000) * sampleRate))` in exact arithmetic. -/
def SegState.init (sampleRate : Nat) (silenceThreshold : Int)
    (silenceDurationMs : Nat) (maxPendingSegments : Nat) : SegState :=
  { sampleRate := sampleRate
    silenceThreshold := silenceThreshold
    minSilenceSamples := max 1 (silenceDurationMs * sampleRate / 1000)
    maxPendingSegments := maxPendingSegments
    pendingAudio := []
    segmentedAudioQueue := []
    pendingTexts := []
    currentTranscript := ""
    currentPartialText := ""
    silenceRunSamples := 0
    committedCount := 0
    enqueuedCompleteCount := 0
    partialCommittedLength := 0
    turnId := 1
    segmentSequence := 0 }

/-! ## `live-segmenter.ts` — operations -/

/-- `commitAudioSegment`: concatenate `pendingAudio` into one buffer, append
it to `segmentedAudioQueue`, dropping the oldest entry when the queue exceeds
`maxPendingSegments`. -/
def commitAudioSegment (st : SegState) : SegState :=
  if st.pendingAudio = [] then st
  else
    let segmentBuffer : ByteBuf := st.pendingAudio.flatten
    let st := { st with pendingAudio := [] }
    if segmentBuffer = ([] : List Nat) then st
    else
      let q := st.segmentedAudioQueue ++ [segmentBuffer]
      { st with segmentedAudioQueue := if q.length > st.maxPendingSegments then q.tail else q }

/-- Recursion core of the sample loop of `ingestAudioChunk`: scan 16-bit
samples at even offsets, counting silence runs; a run reaching
`minSilenceSamples` cuts the buffer at the sample boundary, pushes the head
slice into `pendingAudio` and commits it.  Returns the state and the final
`sliceStart`.  The `fuel` argument makes the recursion structural; the
wrapper supplies `buf.length − offset`, which the loop (advancing `offset`
by two per step) can never exhaust, so the fuel-out branch is unreachable
and mirrors the loop exit. -/
def ingestAudioLoopGo (buf : ByteBuf) : Nat → Nat → Nat → SegState →
    Except Unit (SegState × Nat)
  | 0, _offset, sliceStart, st => .ok (st, sliceStart)
  | fuel + 1, offset, sliceStart, st =>
    if offset < buf.length then do
      let sample ← readInt16LE buf offset
      if (sample.natAbs : Int) ≤ st.silenceThreshold then
        let st := { st with silenceRunSamples := st.silenceRunSamples + 1 }
        if st.silenceRunSamples ≥ st.minSilenceSamples then
          let cutoff := offset + 2
          let segmentPart : ByteBuf := (List.drop sliceStart buf).take (cutoff - sliceStart)
          let st :=
            if segmentPart.length > 0 then
              { st with pendingAudio := st.pendingAudio ++ [segmentPart] }
            else st
          let st := commitAudioSegment st
          ingestAudioLoopGo buf fuel (offset + 2) cutoff { st with silenceRunSamples := 0 }
        else
          ingestAudioLoopGo buf fuel (offset + 2) sliceStart st
      else
        ingestAudioLoopGo buf fuel (offset + 2) sliceStart { st with silenceRunSamples := 0 }
    else
      .ok (st, sliceStart)

/-- The sample loop of `ingestAudioChunk` (source lines 274–293). -/
def ingestAudioLoop (buf : ByteBuf) (offset sliceStart : Nat) (st : SegState) :
    Except Unit (SegState × Nat) :=
  ingestAudioLoopGo buf (buf.length - offset) offset sliceStart st

/-- `ingestAudioChunk`: empty buffers return immediately; otherwise run the
sample loop and push the unprocessed remainder into `pendingAudio`. -/
def ingestAudioChunk (buf : ByteBuf) (st : SegState) : Except Unit SegState :=
  if buf.length = 0 then .ok st
  else do
    let (st, sliceStart) ← ingestAudioLoop buf 0 0 st
    let remainder : ByteBuf := List.drop sliceStart buf
    if remainder.length > 0 then
      .ok { st with pendingAudio := st.pendingAudio ++ [remainder] }
    else
      .ok st

/-- The duration-floor merge loop of `drainPairing` (lines 341–348):
while the buffer is non-empty, below `MIN_SEGMENT_DURATION_MS` and queued
audio remains, concatenate the next queued buffer.  (With an empty queue
the loop guard is false, so the two formulations agree.) -/
def mergeForFloor (sampleRate : Nat) : ByteBuf → List ByteBuf → ByteBuf × List ByteBuf
  | audio, [] => (audio, [])
  | audio, next :: rest =>
    if audio.length > 0 ∧ bytesToMillis audio.length sampleRate < MIN_SEGMENT_DURATION_MS then
      mergeForFloor sampleRate (audio ++ next) rest
    else (audio, next :: rest)

/-- Recursion core of `drainPairing`: pair queued sentence texts with queued
audio buffers and emit `SEGMENT_COMMIT`s.  With `allowSilentAudio = false`
the drain stops when audio runs out (the text stays queued); with `true` an
empty buffer is used.  Each iteration removes exactly one entry of
`pendingTexts`, so the wrapper's fuel `st.pendingTexts.length` is exact and
the fuel-out branch coincides with the empty-queue exit. -/
def drainPairingGo (allowSilentAudio : Bool) : Nat → SegState → List SegEvent × SegState
  | 0, st => ([], st)
  | fuel + 1, st =>
    match st.pendingTexts with
    | [] => ([], st)
    | text :: restTexts =>
    if text = "" then
      drainPairingGo allowSilentAudio fuel { st with pendingTexts := restTexts }
    else
      let popped : Option (ByteBuf × List ByteBuf) :=
        match st.segmentedAudioQueue with
        | [] => if allowSilentAudio then some (([] : List Nat), []) else none
        | a :: rest => some (a, rest)
      match popped with
      | none => ([], st)
      | some (audio0, queue0) =>
        let st' := { st with
          pendingTexts := restTexts
          segmentedAudioQueue := queue0
          segmentSequence := st.segmentSequence + 1 }
        let (audio, queue1) := mergeForFloor st'.sampleRate audio0 queue0
        let durationMs := bytesToMillis audio.length st'.sampleRate
        let ev : SegmentCommitMsg :=
          { turnId := st'.turnId
            index := st'.committedCount
            text := text
            audio := audio
            durationMs := durationMs
            nominalDurationMs := durationMs
            audioBytes := audio.length
            audioSamples := audio.length / 2
            segSeq := st'.segmentSequence }
        let st'' := { st' with
          segmentedAudioQueue := queue1
          committedCount := st'.committedCount + 1 }
        let (evs, stFin) := drainPairingGo allowSilentAudio fuel st''
        (SegEvent.seg ev :: evs, stFin)

/-- `drainPairing` (source lines 321–367). -/
def drainPairing (st : SegState) (allowSilentAudio : Bool) : List SegEvent × SegState :=
  drainPairingGo allowSilentAudio st.pendingTexts.length st

/-- `flushPending` (events and resulting state; the summary counters of
`FlushSummary` are recomputed from these where needed). -/
def flushPending (force : Bool) (st : SegState) : List SegEvent × SegState :=
  let st := if force then commitAudioSegment st else st
  drainPairing st force

/-- `enqueuePartialIfNeeded`: a trailing partial sentence is enqueued only
under `force` and only when it has characters beyond
`partialCommittedLength`; enqueueing first freezes `pendingAudio` via
`commitAudioSegment`. -/
def enqueuePartialIfNeeded (force : Bool) (st : SegState) : SegState :=
  let p := jsTrim st.currentPartialText
  if p.length = 0 then
    if force then { st with partialCommittedLength := 0 } else st
  else
    let hasNewCharacters := p.length > st.partialCommittedLength
    if !force then st
    else if !hasNewCharacters then st
    else
      let st := commitAudioSegment st
      { st with
        pendingTexts := st.pendingTexts ++ [p]
        partialCommittedLength := p.length }

/-- `ingestTranscript`: replace the transcript, split into sentences, detect
shrink (revision) and append newly finalized sentences. -/
def ingestTranscript (payload : Option JsonValue) (st : SegState) : SegState :=
  match payload.bind extractTranscript with
  | none => st
  | some transcript =>
    let st := { st with currentTranscript := transcript }
    let parsed := parseSentences transcript
    let complete := parsed.complete
    let st := { st with currentPartialText := jsTrim parsed.partialText }
    -- (`partialLastUpdatedAt` update omitted: the field is never read.)
    let st :=
      if st.partialCommittedLength > st.currentPartialText.length then
        { st with partialCommittedLength := st.currentPartialText.length }
      else st
    let st :=
      if complete.length < st.enqueuedCompleteCount then
        { st with
          pendingTexts := []
          enqueuedCompleteCount := complete.length
          partialCommittedLength := 0 }
      else st
    if complete.length > st.enqueuedCompleteCount then
      { st with
        pendingTexts := st.pendingTexts ++
          (((complete.drop st.enqueuedCompleteCount).map jsTrim).filter (fun s => s ≠ "")),
        partialCommittedLength := 0
        enqueuedCompleteCount := complete.length }
    else st

/-- `prepareNextTurn`: reset per-turn state and advance `turnId`. -/
def prepareNextTurn (st : SegState) : SegState :=
  { st with
    turnId := st.turnId + 1
    committedCount := 0
    segmentSequence := 0
    pendingTexts := []
    segmentedAudioQueue := []
    pendingAudio := []
    currentTranscript := ""
    currentPartialText := ""
    silenceRunSamples := 0
    enqueuedCompleteCount := 0
    partialCommittedLength := 0 }

/-- `finalizeTurnInternal`: enqueue the forced partial, flush, and emit a
`TURN_COMMIT` iff the final text is non-empty or any segment was committed
this turn (including by the final flush); always prepare the next turn. -/
def finalizeTurnInternal (force : Bool) (st : SegState) : List SegEvent × SegState :=
  let st0 := enqueuePartialIfNeeded force st
  let before := st0.committedCount
  let (evs, st1) := flushPending force st0
  let finalText := jsTrim st1.currentTranscript
  let segmentCountForTurn := st1.committedCount
  let emittedSegmentCount := st1.committedCount - before
  let shouldEmitTurnCommit :=
    finalText.length > 0 ∨ segmentCountForTurn > 0 ∨ emittedSegmentCount > 0
  if shouldEmitTurnCommit then
    (evs ++ [SegEvent.turn ⟨st1.turnId, finalText, segmentCountForTurn⟩], prepareNextTurn st1)
  else
    (evs, prepareNextTurn st1)

/-- `forceCompleteTurn`. -/
def forceCompleteTurn (st : SegState) : List SegEvent × SegState :=
  finalizeTurnInternal true st

/-- Fold `ingestAudioChunk` over the chunk list of a payload (the `mimeType`
descriptor next to each buffer is unused by `handleUpstreamPayload`). -/
def ingestAudioChunks (chunks : List ByteBuf) (st : SegState) : Except Unit SegState :=
  match chunks with
  | [] => .ok st
  | c :: rest => do
    let st ← ingestAudioChunk c st
    ingestAudioChunks rest st

/-- `handleUpstreamPayload`: ingest the transcript, the (non-forced) partial
check and the audio chunks, then flush without force.  Returns the events,
the `generationComplete` flag and the state.  (`inspectTranscriptPayload` is
diagnostics-only and not modelled.) -/
def handleUpstreamPayload (payload : Option JsonValue) (chunks : List ByteBuf)
    (st : SegState) : Except Unit (List SegEvent × Bool × SegState) := do
  let st := ingestTranscript payload st
  let st := enqueuePartialIfNeeded false st
  let st ← ingestAudioChunks chunks st
  let (evs, st) := flushPending false st
  let generationComplete :=
    match payload with
    | some p => isGenerationComplete p
    | none => false
  .ok (evs, generationComplete, st)

/-! ## Sequences of segmenter operations (for the per-turn claims) -/

/-- One externally triggered segmenter operation inside a turn. -/
inductive SegOp where
  | handle (payload : Option JsonValue) (chunks : List ByteBuf) : SegOp
  | flush (force : Bool) : SegOp

/-- Run a list of in-turn operations, concatenating the emitted events. -/
def runOps (ops : List SegOp) (st : SegState) : Except Unit (List SegEvent × SegState) :=
  match ops with
  | [] => .ok ([], st)
  | op :: rest => do
    let (evs, st') ←
      match op with
      | .handle payload chunks => do
        let (evs, _, st') ← handleUpstreamPayload payload chunks st
        pure (evs, st')
      | .flush force => pure (flushPending force st)
    let (evs', st'') ← runOps rest st'
    .ok (evs ++ evs', st'')

/-! ## `Pcm24PlayerProcessor` — epoch acceptance and flush

State projection of the worklet processor onto the fields the epoch /
flush logic reads or writes and the claims mention.  Fields that the
`flush()` method also resets but that are pure playback/diagnostic plumbing
(`consumeFraction`, `firstPlaybackAt`, `firstPlaybackQueueMs`,
`firstPlaybackLeadMs`, `pendingTail`, `pendingTailTimestamp`,
`fadeInSamplesRemaining`) are not modelled; none of them is read by the
acceptance logic.  "Accepted" means control reached `enqueuePcmBuffer`; the
sample pipeline behind it (zero-crossing trim, edge window, crossfade) is
outside the acceptance policy under verification, so acceptance is recorded
as a `Bool` and the ring-buffer occupancy changes only through `flush`. -/
structure PlayerState where
  currentEpoch : Int
  hasPlayed : Bool
  playbackArmed : Bool
  totalDropped : Nat
  trimGraceAccepts : Nat
  joinCount : Nat
  pendingLeadSamples : Nat
  queueLowActive : Bool
  underrunActive : Bool
  /-- `ringBuffer.available`. -/
  ringAvailable : Nat
  /-- whether `lastSupersedeTime` has been recorded (its clock value is
  wall-time and not modelled). -/
  lastSupersedeRecorded : Bool
deriving DecidableEq

/-- `flush()` of the worklet: full reset of playback state, emptying the
ring buffer and clearing `playbackArmed` and `hasPlayed`. -/
def playerFlush (st : PlayerState) : PlayerState :=
  { st with
    ringAvailable := 0
    playbackArmed := false
    hasPlayed := false
    pendingLeadSamples := 0
    joinCount := 0
    queueLowActive := false
    underrunActive := false }

/-- `applyEpoch(epoch, contextTime)`: ignore a repeat of the current epoch,
count one drop if samples are queued, record the supersede and flush. -/
def applyEpoch (epoch : Int) (st : PlayerState) : PlayerState :=
  if epoch = st.currentEpoch then st
  else
    let st :=
      if st.ringAvailable > 0 then { st with totalDropped := st.totalDropped + 1 } else st
    playerFlush { st with currentEpoch := epoch, lastSupersedeRecorded := true }

/-- `handlePushMessage`: the epoch acceptance policy (worklet lines
1808–1825).  Returns the updated state and whether the buffer reached
`enqueuePcmBuffer`. -/
def handlePushMessage (msgEpoch : Option Int) (st : PlayerState) : PlayerState × Bool :=
  let messageEpoch := msgEpoch.getD st.currentEpoch
  let behind := st.currentEpoch - messageEpoch
  if behind > 0 then
    if !st.hasPlayed ∧ behind ≤ 1 then
      -- trim grace: count and fall through to acceptance
      ({ st with trimGraceAccepts := st.trimGraceAccepts + 1 }, true)
    else
      ({ st with totalDropped := st.totalDropped + 1 }, false)
  else
    let st := if messageEpoch > st.currentEpoch then applyEpoch messageEpoch st else st
    (st, true)

/-- The `port.onmessage` commands relevant to the claims. -/
inductive PlayerMsg where
  | push (epoch : Option Int) : PlayerMsg
  | flushCmd : PlayerMsg
  | clearCmd : PlayerMsg
  | softFlushCmd : PlayerMsg
  | epochCmd (epoch : Int) : PlayerMsg

/-- The `port.onmessage` dispatch (worklet lines 1756–1777): `flush`,
`clear` and `soft_flush` all invoke `flush()`; `push` runs the acceptance
policy; `epoch` runs `applyEpoch`. -/
def playerOnMessage (msg : PlayerMsg) (st : PlayerState) : PlayerState × Bool :=
  match msg with
  | .push epoch => handlePushMessage epoch st
  | .flushCmd => (playerFlush st, false)
  | .clearCmd => (playerFlush st, false)
  | .softFlushCmd => (playerFlush st, false)
  | .epochCmd e => (applyEpoch e st, false)

/-! ## Caption extractor (client) -/

/-- `TEXT_CONTAINER_KEYS` of the caption helpers. -/
def TEXT_CONTAINER_KEYS : List String :=
  ["serverContent", "server_content", "modelResponse", "model_response", "response",
   "output", "outputs", "candidates", "content", "contents", "parts",
   "finalResponse", "final_response", "generations"]

/-- `TEXT_VALUE_KEYS` of the caption helpers. -/
def TEXT_VALUE_KEYS : List String :=
  ["text", "finalText", "final_text", "responseText", "response_text",
   "outputText", "output_text", "transcript", "transcription"]

/-- Principal code-point ranges of the `\p{Script=Han}`,
`\p{Script=Hiragana}`, `\p{Script=Katakana}` character class. -/
def isCjkChar (c : Char) : Bool :=
  (0x3041 ≤ c.toNat ∧ c.toNat ≤ 0x309F) ∨       -- Hiragana
  (0x30A0 ≤ c.toNat ∧ c.toNat ≤ 0x30FF) ∨       -- Katakana
  (0x31F0 ≤ c.toNat ∧ c.toNat ≤ 0x31FF) ∨       -- Katakana phonetic ext
  (0x3400 ≤ c.toNat ∧ c.toNat ≤ 0x4DBF) ∨       -- Han ext A
  (0x4E00 ≤ c.toNat ∧ c.toNat ≤ 0x9FFF) ∨       -- Han
  (0xF900 ≤ c.toNat ∧ c.toNat ≤ 0xFAFF)         -- Han compatibility

/-- `computeCandidateScore`: length, +10 for a terminal final character,
+2 when any whitespace occurs, +1 when any CJK character occurs. -/
def computeCandidateScore (text : String) : Nat :=
  let base := text.length
  let lastBonus :=
    match text.data.getLast? with
    | some c => if isTerminalChar c then 10 else 0
    | none => 0
  let wsBonus := if text.data.any isJsSpace then 2 else 0
  let cjkBonus := if text.data.any isCjkChar then 1 else 0
  base + lastBonus + wsBonus + cjkBonus

/-- The fold of `selectBestCandidate`: skip empty trims and duplicates;
replace the best on a strictly higher score or an equal score with a longer
string. -/
def selectBestLoop : List String → List String → Option (String × Nat) → Option (String × Nat)
  | [], _seen, best => best
  | c :: rest, seen, best =>
    let t := jsTrim c
    if t = "" ∨ seen.contains t then selectBestLoop rest seen best
    else
      let score := computeCandidateScore t
      let seen := t :: seen
      match best with
      | none => selectBestLoop rest seen (some (t, score))
      | some (b, bs) =>
        if score > bs ∨ (score = bs ∧ t.length > b.length) then
          selectBestLoop rest seen (some (t, score))
        else
          selectBestLoop rest seen (some (b, bs))

/-- `selectBestCandidate`. -/
def selectBestCandidate (candidates : List String) : Option String :=
  (selectBestLoop candidates [] none).map Prod.fst

/-- Recursion core of `collectTextCandidates` on the remaining depth budget
(`9 − depth`; the source stops when `depth > 8`). -/
def collectTextCandidatesGo : Nat → JsonValue → List String
  | 0, _ => []
  | budget + 1, v =>
    match v with
    | .null => []
    | .bool _ => []
    | .num _ => []
    | .str s => [s]
    | .arr xs => (xs.map (fun entry => collectTextCandidatesGo budget entry)).flatten
    | .obj fields =>
      (fields.map (fun kv =>
        if TEXT_VALUE_KEYS.contains kv.1 then
          match kv.2 with
          | .str s => [s]
          | _ => if TEXT_CONTAINER_KEYS.contains kv.1 then collectTextCandidatesGo budget kv.2 else []
        else if TEXT_CONTAINER_KEYS.contains kv.1 then
          collectTextCandidatesGo budget kv.2
        else [])).flatten

/-- `collectTextCandidates`: depth-capped (`depth > 8` stops), cycle-safe
recursive harvest of strings: strings are candidates; arrays recurse; in an
object, a `TEXT_VALUE_KEYS` key with a string value is a candidate and a
`TEXT_CONTAINER_KEYS` key recurses. -/
def collectTextCandidates (v : JsonValue) (depth : Nat) : List String :=
  collectTextCandidatesGo (9 - depth) v

/-- `extractCaption`: the direct `serverContent.outputTranscription.text`
string (even when empty) takes precedence; otherwise the best-scored walk
candidate. -/
def extractCaption (payload : JsonValue) : Option String :=
  match payload with
  | .obj _ =>
    (match getNestedString payload ["serverContent", "outputTranscription", "text"] with
     | some serverText => some serverText
     | none => selectBestCandidate (collectTextCandidates payload 0))
  | .arr _ =>
    -- arrays pass the `typeof payload === "object"` guard; the nested lookup
    -- yields nothing on them and the walk runs
    (match getNestedString payload ["serverContent", "outputTranscription", "text"] with
     | some serverText => some serverText
     | none => selectBestCandidate (collectTextCandidates payload 0))
  | _ => none

/-! ## `backoff.ts` and the retryable-close classification -/

/-- `randomJitter`: `value − 0.2·value + r·0.4·value` for the drawn
`r = Math.random() ∈ [0,1)`. -/
def randomJitter (value r : ℚ) : ℚ :=
  let delta := value * (2 / 10)
  value - delta + r * (delta * 2)

/-- The raw (pre-jitter) delay of `next()` at a given attempt count:
`min(maxDelay, initialDelay * multiplier^attempt)`. -/
def backoffRawDelay (initialDelay maxDelay multiplier : ℚ) (attempt : Nat) : ℚ :=
  min maxDelay (initialDelay * multiplier ^ attempt)

/-- `next()` of `createExponentialBackoff`: returns the (optionally
jittered) delay and the incremented attempt counter. -/
def backoffNext (initialDelay maxDelay multiplier : ℚ) (jitterEnabled : Bool)
    (r : ℚ) (attempt : Nat) : ℚ × Nat :=
  let rawDelay := backoffRawDelay initialDelay maxDelay multiplier attempt
  (if jitterEnabled then randomJitter rawDelay r else rawDelay, attempt + 1)

/-- `reset()` of `createExponentialBackoff`. -/
def backoffReset : Nat := 0

/-- The backoff instance of `GeminiLiveProxy`:
`createExponentialBackoff({ initialDelayMs: 500, maxDelayMs: 15_000 })` with
the default multiplier 2 and jitter enabled. -/
def proxyBackoffNext (r : ℚ) (attempt : Nat) : ℚ × Nat :=
  backoffNext 500 15000 2 true r attempt

/-- `RETRYABLE_CLOSE_CODES` membership. -/
def isRetryableCloseCode (code : Nat) : Bool :=
  code = 1006 ∨ code = 1011 ∨ code = 1012 ∨ code = 1013

/-- `shouldRetryClose` of `gemini-live.ts`. -/
def shouldRetryClose (code : Nat) (reason : String) : Bool :=
  if isRetryableCloseCode code then true
  else if code = 1000 then false
  else if (reason.splitOn "429").length > 1 then true  -- `reason.includes("429")`
  else if reason.startsWith "5" then true
  else false

/-! ## Shared predicates for the theorems -/

/-- The `SEGMENT_COMMIT` payloads of an event list, in order. -/
def segMsgs (evs : List SegEvent) : List SegmentCommitMsg :=
  evs.filterMap (fun e => match e with | .seg m => some m | .turn _ => none)

/-- Fields of the segmenter state that `drainPairing` never writes. -/
def drainPreserves (st st' : SegState) : Prop :=
  st'.sampleRate = st.sampleRate ∧
  st'.silenceThreshold = st.silenceThreshold ∧
  st'.minSilenceSamples = st.minSilenceSamples ∧
  st'.maxPendingSegments = st.maxPendingSegments ∧
  st'.pendingAudio = st.pendingAudio ∧
  st'.currentTranscript = st.currentTranscript ∧
  st'.currentPartialText = st.currentPartialText ∧
  st'.silenceRunSamples = st.silenceRunSamples ∧
  st'.enqueuedCompleteCount = st.enqueuedCompleteCount ∧
  st'.partialCommittedLength = st.partialCommittedLength ∧
  st'.turnId = st.turnId

/-- Event-list shape of one segmenter turn: a run of `SEGMENT_COMMIT`s whose
indices are exactly `0, 1, 2, …`, optionally followed by a single
`TURN_COMMIT`. -/
def TurnShape (evs : List SegEvent) : Prop :=
  ((segMsgs evs).map SegmentCommitMsg.index = List.range (segMsgs evs).length) ∧
  ∃ segs rest, evs = segs ++ rest ∧ (∀ e ∈ segs, e.isSeg = true) ∧
    (rest = [] ∨ ∃ m, rest = [SegEvent.turn m])

/-! ## Concrete payloads and states used by the closed instances -/

/-- A payload carrying only `serverContent.outputTranscription.text`. -/
def payloadText (t : String) : JsonValue :=
  .obj [("serverContent", .obj [("outputTranscription", .obj [("text", .str t)])])]

/-- The scenario payload `{generationComplete:true}`. -/
def payloadGenComplete : JsonValue := .obj [("generationComplete", .bool true)]

/-- The candidate-scoring scenario payload
`{outputs:[{text:"？"},{text:"おはようございます。"},{text:"お"}]}`. -/
def payloadOutputs : JsonValue :=
  .obj [("outputs", .arr
    [.obj [("text", .str "？")],
     .obj [("text", .str "おはようございます。")],
     .obj [("text", .str "お")]])]

/-- A segmenter with `sampleRate 24000, silenceThreshold 600,
silenceDurationMs 1, maxPendingSegments 8` (so 24 silent samples cut a
segment). -/
def segmenterCfgA : SegState := SegState.init 24000 600 1 8

/-- The unit-test configuration: `sampleRate 24000, silenceThreshold 600,
silenceDurationMs 300, maxPendingSegments 4`. -/
def freshSegmenter : SegState := SegState.init 24000 600 300 4

/-- 24 silent samples (48 zero bytes). -/
def silentChunk48 : ByteBuf := List.replicate 48 0

/-- 24 active samples of amplitude 8000 (`0x1F40` little-endian). -/
def activeChunk48 : ByteBuf := (List.replicate 24 ([64, 31] : List Nat)).flatten

/-- A player state that has already armed and played inside epoch 3 with
queued samples. -/
def playerPlayedState : PlayerState :=
  ⟨3, true, true, 2, 1, 2, 5, false, false, 42, false⟩

/-- A player state in epoch 5 that has not yet produced output. -/
def playerFreshState : PlayerState :=
  ⟨5, false, false, 0, 0, 0, 0, false, false, 0, false⟩

/-- A segmenter state holding one pending sentence and one queued 9600-byte
audio buffer (for the duration-floor witness). -/
def segmenterCfgB : SegState :=
  { segmenterCfgA with
      pendingTexts := ["こんにちは。"]
      segmentedAudioQueue := [List.replicate 9600 0] }

/-- The run behind the duration-floor counterexample: one aligned sentence
whose only audio segment is 48 bytes (1 ms at 24 kHz). -/
def c1RunEvents : List SegEvent :=
  match handleUpstreamPayload (some (payloadText "こんにちは。")) [silentChunk48] segmenterCfgA with
  | .ok (evs, _, _) => evs
  | .error _ => []

/-- Events of a `handleUpstreamPayload` run (empty on the error path). -/
def runEvents (r : Except Unit (List SegEvent × Bool × SegState)) : List SegEvent :=
  match r with
  | .ok (evs, _, _) => evs
  | .error _ => []

/-- Resulting state of a `handleUpstreamPayload` run (`fallback` on the error
path). -/
def runState (fallback : SegState) (r : Except Unit (List SegEvent × Bool × SegState)) :
    SegState :=
  match r with
  | .ok (_, _, st) => st
  | .error _ => fallback

/-- The `turnId`s of the `TURN_COMMIT` events of a list, in order. -/
def turnIdsOf (evs : List SegEvent) : List Nat :=
  evs.filterMap (fun e => match e with | .turn m => some m.turnId | .seg _ => none)

/-- Shrink scenario, step 1: transcript `"ABC。DEF。"` with audio for one
segment. -/
def c5Step1 : Except Unit (List SegEvent × Bool × SegState) :=
  handleUpstreamPayload (some (payloadText "ABC。DEF。")) [silentChunk48] segmenterCfgA

/-- Shrink scenario, step 2: the shrunken transcript `"ABC。"`. -/
def c5Step2 : Except Unit (List SegEvent × Bool × SegState) :=
  handleUpstreamPayload (some (payloadText "ABC。")) [] (runState segmenterCfgA c5Step1)

/-- A single-`handleUpstreamPayload` op list for the turn-shape instance. -/
def c2Ops : List SegOp :=
  [SegOp.handle (some (payloadText "こんにちは。")) [silentChunk48]]

/-- The run of `c2Ops` from `segmenterCfgA`. -/
def c2Run : Except Unit (List SegEvent × SegState) := runOps c2Ops segmenterCfgA

/-- Events of `c2Run`. -/
def c2RunEvents : List SegEvent :=
  match c2Run with
  | .ok (evs, _) => evs
  | .error _ => []

/-- State after `c2Run`. -/
def c2RunState : SegState :=
  match c2Run with
  | .ok (_, st) => st
  | .error _ => segmenterCfgA

/-- Turn-skipping scenario: turn 1 commits, turn 2 is empty (no commit, the
id is still consumed), turn 3 commits. -/
def c10State1 : SegState :=
  runState freshSegmenter (handleUpstreamPayload (some (payloadText "A。")) [] freshSegmenter)

/-- Finalization of turn 1 of the skipping scenario. -/
def c10Fin1 : List SegEvent × SegState := finalizeTurnInternal true c10State1

/-- Finalization of the empty turn 2 of the skipping scenario. -/
def c10Fin2 : List SegEvent × SegState := finalizeTurnInternal true c10Fin1.2

/-- Turn 3 of the skipping scenario ingests `"B。"`. -/
def c10State3 : SegState :=
  runState c10Fin2.2 (handleUpstreamPayload (some (payloadText "B。")) [] c10Fin2.2)

/-- Finalization of turn 3 of the skipping scenario. -/
def c10Fin3 : List SegEvent × SegState := finalizeTurnInternal true c10State3

/-! # Theorems

### C3 — the player push acceptance policy -/

/-- **C3.** For every push message handled by the player worklet: if
`msgEpoch < currentEpoch − 1` the buffer is dropped and `totalDropped` is
incremented; if `msgEpoch = currentEpoch − 1` and `hasPlayed` is false the
buffer is accepted and `trimGraceAccepts` is counted; if
`msgEpoch = currentEpoch − 1` and `hasPlayed` is true the buffer is dropped;
if `msgEpoch > currentEpoch` the epoch advances to `msgEpoch` (implicit
supersede) and the buffer is accepted; if `msgEpoch = currentEpoch` the
buffer is accepted with the state unchanged. -/
theorem push_epoch_acceptance_policy (st : PlayerState) (e : Int) :
    (e < st.currentEpoch - 1 →
      handlePushMessage (some e) st =
        ({ st with totalDropped := st.totalDropped + 1 }, false)) ∧
    (e = st.currentEpoch - 1 → st.hasPlayed = false →
      handlePushMessage (some e) st =
        ({ st with trimGraceAccepts := st.trimGraceAccepts + 1 }, true)) ∧
    (e = st.currentEpoch - 1 → st.hasPlayed = true →
      handlePushMessage (some e) st =
        ({ st with totalDropped := st.totalDropped + 1 }, false)) ∧
    (st.currentEpoch < e →
      handlePushMessage (some e) st = (applyEpoch e st, true) ∧
      (handlePushMessage (some e) st).1.currentEpoch = e ∧
      (handlePushMessage (some e) st).2 = true) ∧
    (e = st.currentEpoch → handlePushMessage (some e) st = (st, true)) := by
  refine ⟨?_, ?_, ?_, ?_, ?_⟩
  · intro h
    simp only [handlePushMessage, Option.getD]
    rw [if_pos (by omega)]
    rw [if_neg (by simp only [not_and]; omega)]
  · intro h hp
    simp only [handlePushMessage, Option.getD]
    rw [if_pos (by omega)]
    rw [if_pos (by simp [hp]; omega)]
  · intro h hp
    simp only [handlePushMessage, Option.getD]
    rw [if_pos (by omega)]
    rw [if_neg (by simp [hp])]
  · intro h
    have h1 : handlePushMessage (some e) st = (applyEpoch e st, true) := by
      simp only [handlePushMessage, Option.getD]
      rw [if_neg (by omega)]
      rw [if_pos (by omega)]
    have h2 : (applyEpoch e st).currentEpoch = e := by
      simp only [applyEpoch]
      rw [if_neg (by omega)]
      split <;> rfl
    exact ⟨h1, by rw [h1]; exact h2, by rw [h1]⟩
  · intro h
    simp only [handlePushMessage, Option.getD]
    rw [if_neg (by omega)]
    rw [if_neg (by omega)]

/-- **C3 (witness).** Concrete instance: epoch one behind, not yet played —
the push is accepted through the trim grace. -/
theorem push_epoch_acceptance_policy_witness :
    handlePushMessage (some 4) playerFreshState =
      ({ playerFreshState with trimGraceAccepts := 1 }, true) := by
  have h := push_epoch_acceptance_policy playerFreshState 4
  exact h.2.1 (by decide) (by decide)

/-! ### C8 — `soft_flush` versus `flush` -/

/-- **C8 (counterexample).** The claim says `soft_flush` preserves
`playbackArmed` and `hasPlayed`.  On a state that has armed and played,
`soft_flush` clears both (the message handler routes `soft_flush` to the
same `flush()` full reset as `flush`/`clear`). -/
theorem soft_flush_arming_counterexample :
    playerPlayedState.hasPlayed = true ∧
    playerPlayedState.playbackArmed = true ∧
    (playerOnMessage .softFlushCmd playerPlayedState).1.hasPlayed = false ∧
    (playerOnMessage .softFlushCmd playerPlayedState).1.playbackArmed = false := by
  exact ⟨rfl, rfl, rfl, rfl⟩

/-- **C8 (amended).** A `soft_flush` command empties the ring buffer but
does not preserve arming: it performs exactly the same full reset as
`flush` (and `clear`), leaving `playbackArmed = false` and
`hasPlayed = false`. -/
theorem soft_flush_is_full_reset (st : PlayerState) :
    playerOnMessage .softFlushCmd st = (playerFlush st, false) ∧
    playerOnMessage .flushCmd st = (playerFlush st, false) ∧
    playerOnMessage .clearCmd st = (playerFlush st, false) ∧
    (playerFlush st).ringAvailable = 0 ∧
    (playerFlush st).playbackArmed = false ∧
    (playerFlush st).hasPlayed = false :=
  ⟨rfl, rfl, rfl, rfl, rfl, rfl⟩

/-! ### C9 — exponential reconnect backoff -/

/-- **C9.** The proxy backoff has initial delay 500 ms, multiplier 2, cap
15 s and ±20 % jitter; `next()` increments the attempt counter and
`reset()` zeroes it; code 1011 is retryable; and for every jitter outcome
the first four delays lie within ±20 % of 500, 1000, 2000 and 4000 ms. -/
theorem reconnect_backoff_ladder (r : Nat → ℚ) (hr : ∀ i, 0 ≤ r i ∧ r i < 1) :
    (∀ attempt, (proxyBackoffNext (r attempt) attempt).2 = attempt + 1) ∧
    backoffReset = 0 ∧
    shouldRetryClose 1011 "" = true ∧
    (∀ i, i < 4 →
      (400 : ℚ) * 2 ^ i ≤ (proxyBackoffNext (r i) i).1 ∧
      (proxyBackoffNext (r i) i).1 < 600 * 2 ^ i) := by
  refine ⟨fun _ => rfl, rfl, rfl, ?_⟩
  intro i hi
  obtain ⟨h0, h1⟩ := hr i
  interval_cases i <;>
    · simp only [proxyBackoffNext, backoffNext, backoffRawDelay, randomJitter, if_pos]
      norm_num
      constructor <;> linarith

/-- **C9 (witness).** Concrete jitter draw `r = 1/2` at attempt 0: delay
500 ms (within bounds), attempt counter advances to 1. -/
theorem reconnect_backoff_ladder_witness :
    (proxyBackoffNext (1/2) 0).2 = 1 ∧
    (400 : ℚ) * 2 ^ 0 ≤ (proxyBackoffNext (1/2) 0).1 ∧
    (proxyBackoffNext (1/2) 0).1 < 600 * 2 ^ 0 := by
  have h := reconnect_backoff_ladder (fun _ => 1/2) (fun _ => by norm_num)
  exact ⟨h.1 0, (h.2.2.2 0 (by norm_num)).1, (h.2.2.2 0 (by norm_num)).2⟩

/-! ## Helper lemmas about the segmenter operations -/

theorem mergeForFloor_spec (sr : Nat) :
    ∀ (queue : List ByteBuf) (audio : ByteBuf),
    (audio ≠ ([] : List Nat) → (mergeForFloor sr audio queue).1 ≠ ([] : List Nat)) ∧
    (∀ b ∈ (mergeForFloor sr audio queue).2, b ∈ queue) ∧
    ¬(0 < (mergeForFloor sr audio queue).1.length ∧
      bytesToMillis (mergeForFloor sr audio queue).1.length sr < MIN_SEGMENT_DURATION_MS ∧
      (mergeForFloor sr audio queue).2 ≠ []) := by
  intro queue
  induction queue with
  | nil =>
    intro audio
    exact ⟨fun h => h, by simp [mergeForFloor], by simp [mergeForFloor]⟩
  | cons next rest ih =>
    intro audio
    by_cases hguard : audio.length > 0 ∧ bytesToMillis audio.length sr < MIN_SEGMENT_DURATION_MS
    · have hstep : mergeForFloor sr audio (next :: rest) = mergeForFloor sr (audio ++ next) rest := by
        simp only [mergeForFloor]
        rw [if_pos hguard]
      rw [hstep]
      obtain ⟨ih1, ih2, ih3⟩ := ih (audio ++ next)
      refine ⟨?_, ?_, ih3⟩
      · intro _
        refine ih1 ?_
        have hlen : audio.length > 0 := hguard.1
        intro hc
        rw [List.append_eq_nil] at hc
        rw [hc.1] at hlen
        simp at hlen
      · intro b hb
        exact List.mem_cons_of_mem next (ih2 b hb)
    · have hstep : mergeForFloor sr audio (next :: rest) = (audio, next :: rest) := by
        simp only [mergeForFloor]
        rw [if_neg hguard]
      rw [hstep]
      exact ⟨fun h => h, fun b hb => hb, fun ⟨hp, hd, _⟩ => hguard ⟨hp, hd⟩⟩

theorem drainPairingGo_spec :
    ∀ (fuel : Nat) (st : SegState) (allow : Bool),
    ∀ evs st', drainPairingGo allow fuel st = (evs, st') →
      (∀ e ∈ evs, e.isSeg = true) ∧
      (segMsgs evs).map SegmentCommitMsg.index =
        List.range' st.committedCount (segMsgs evs).length ∧
      st'.committedCount = st.committedCount + (segMsgs evs).length ∧
      (∀ m ∈ segMsgs evs, m.turnId = st.turnId ∧
        m.durationMs = bytesToMillis m.audioBytes st.sampleRate ∧
        m.nominalDurationMs = m.durationMs ∧
        m.audioSamples = m.audioBytes / 2 ∧ m.text ≠ "") ∧
      drainPreserves st st' := by
  intro fuel
  induction fuel with
  | zero =>
    intro st allow evs st' heq
    simp only [drainPairingGo] at heq
    cases heq
    refine ⟨by simp, by simp [segMsgs], by simp [segMsgs], by simp [segMsgs], ?_⟩
    exact ⟨rfl, rfl, rfl, rfl, rfl, rfl, rfl, rfl, rfl, rfl, rfl⟩
  | succ n ih =>
    intro st allow evs st' heq
    rw [drainPairingGo.eq_def] at heq
    dsimp only at heq
    cases htexts : st.pendingTexts with
    | nil =>
      rw [htexts] at heq
      dsimp only at heq
      cases heq
      refine ⟨by simp, by simp [segMsgs], by simp [segMsgs], by simp [segMsgs], ?_⟩
      exact ⟨rfl, rfl, rfl, rfl, rfl, rfl, rfl, rfl, rfl, rfl, rfl⟩
    | cons text restTexts =>
      rw [htexts] at heq
      dsimp only at heq
      by_cases htext : text = ""
      · rw [if_pos htext] at heq
        exact ih { st with pendingTexts := restTexts } allow evs st' heq
      · rw [if_neg htext] at heq
        cases hq : st.segmentedAudioQueue with
        | nil =>
          rw [hq] at heq
          dsimp only at heq
          by_cases hallow : allow = true
          · rw [if_pos hallow] at heq
            rcases hm : mergeForFloor st.sampleRate [] [] with ⟨audio, queue1⟩
            simp only [hm, Prod.mk.injEq] at heq
            obtain ⟨hevs, hst'⟩ := heq
            subst hevs
            subst hst'
            obtain ⟨ih1, ih2, ih3, ih4, ih5⟩ :=
              ih (⟨st.sampleRate, st.silenceThreshold, st.minSilenceSamples, st.maxPendingSegments, st.pendingAudio, queue1, restTexts, st.currentTranscript, st.currentPartialText, st.silenceRunSamples, st.committedCount + 1, st.enqueuedCompleteCount, st.partialCommittedLength, st.turnId, st.segmentSequence + 1⟩ : SegState) allow _ _ rfl
            refine ⟨?_, ?_, ?_, ?_, ih5⟩
            · intro e he
              rcases List.mem_cons.mp he with h1 | h1
              · rw [h1]; rfl
              · exact ih1 e h1
            · simp only [segMsgs, List.filterMap_cons, List.map_cons, List.length_cons] at *
              rw [List.range'_succ]
              exact congrArg _ ih2
            · simp only [segMsgs, List.filterMap_cons, List.length_cons] at *
              omega
            · intro m hm2
              simp only [segMsgs, List.filterMap_cons] at hm2
              rcases List.mem_cons.mp hm2 with h1 | h1
              · subst h1
                exact ⟨rfl, rfl, rfl, rfl, htext⟩
              · exact ih4 m h1
          · rw [if_neg hallow] at heq
            cases heq
            refine ⟨by simp, by simp [segMsgs], by simp [segMsgs], by simp [segMsgs], ?_⟩
            exact ⟨rfl, rfl, rfl, rfl, rfl, rfl, rfl, rfl, rfl, rfl, rfl⟩
        | cons audio0 queue0 =>
          rw [hq] at heq
          dsimp only at heq
          rcases hm : mergeForFloor st.sampleRate audio0 queue0 with ⟨audio, queue1⟩
          simp only [hm, Prod.mk.injEq] at heq
          obtain ⟨hevs, hst'⟩ := heq
          subst hevs
          subst hst'
          obtain ⟨ih1, ih2, ih3, ih4, ih5⟩ :=
            ih (⟨st.sampleRate, st.silenceThreshold, st.minSilenceSamples, st.maxPendingSegments, st.pendingAudio, queue1, restTexts, st.currentTranscript, st.currentPartialText, st.silenceRunSamples, st.committedCount + 1, st.enqueuedCompleteCount, st.partialCommittedLength, st.turnId, st.segmentSequence + 1⟩ : SegState) allow _ _ rfl
          refine ⟨?_, ?_, ?_, ?_, ih5⟩
          · intro e he
            rcases List.mem_cons.mp he with h1 | h1
            · rw [h1]; rfl
            · exact ih1 e h1
          · simp only [segMsgs, List.filterMap_cons, List.map_cons, List.length_cons] at *
            rw [List.range'_succ]
            exact congrArg _ ih2
          · simp only [segMsgs, List.filterMap_cons, List.length_cons] at *
            omega
          · intro m hm2
            simp only [segMsgs, List.filterMap_cons] at hm2
            rcases List.mem_cons.mp hm2 with h1 | h1
            · subst h1
              exact ⟨rfl, rfl, rfl, rfl, htext⟩
            · exact ih4 m h1

theorem drainPairing_spec (st : SegState) (allow : Bool) :
    ∀ evs st', drainPairing st allow = (evs, st') →
      (∀ e ∈ evs, e.isSeg = true) ∧
      (segMsgs evs).map SegmentCommitMsg.index =
        List.range' st.committedCount (segMsgs evs).length ∧
      st'.committedCount = st.committedCount + (segMsgs evs).length ∧
      (∀ m ∈ segMsgs evs, m.turnId = st.turnId ∧
        m.durationMs = bytesToMillis m.audioBytes st.sampleRate ∧
        m.nominalDurationMs = m.durationMs ∧
        m.audioSamples = m.audioBytes / 2 ∧ m.text ≠ "") ∧
      drainPreserves st st' :=
  drainPairingGo_spec st.pendingTexts.length st allow


theorem drainPairingGo_audio_spec :
    ∀ (fuel : Nat) (st : SegState) (allow : Bool),
    (∀ b ∈ st.segmentedAudioQueue, b ≠ ([] : List Nat)) →
    ∀ evs st', drainPairingGo allow fuel st = (evs, st') →
      (∀ m ∈ segMsgs evs, m.audioBytes = 0 → allow = true) ∧
      (segMsgs evs).Pairwise
        (fun a b => 0 < a.audioBytes ∧ a.durationMs < MIN_SEGMENT_DURATION_MS →
          b.audioBytes = 0) ∧
      (st.segmentedAudioQueue = [] → ∀ m ∈ segMsgs evs, m.audioBytes = 0) := by
  intro fuel
  induction fuel with
  | zero =>
    intro st allow hinv evs st' heq
    simp only [drainPairingGo] at heq
    cases heq
    exact ⟨by simp [segMsgs], by simp [segMsgs], by simp [segMsgs]⟩
  | succ n ih =>
    intro st allow hinv evs st' heq
    rw [drainPairingGo.eq_def] at heq
    dsimp only at heq
    cases htexts : st.pendingTexts with
    | nil =>
      rw [htexts] at heq
      dsimp only at heq
      cases heq
      exact ⟨by simp [segMsgs], by simp [segMsgs], by simp [segMsgs]⟩
    | cons text restTexts =>
      rw [htexts] at heq
      dsimp only at heq
      by_cases htext : text = ""
      · rw [if_pos htext] at heq
        exact ih { st with pendingTexts := restTexts } allow hinv evs st' heq
      · rw [if_neg htext] at heq
        cases hq : st.segmentedAudioQueue with
        | nil =>
          rw [hq] at heq
          dsimp only at heq
          by_cases hallow : allow = true
          · rw [if_pos hallow] at heq
            rcases hm : mergeForFloor st.sampleRate [] [] with ⟨audio, queue1⟩
            simp only [hm, Prod.mk.injEq] at heq
            obtain ⟨hevs, hst'⟩ := heq
            subst hevs
            subst hst'
            have hmZero : mergeForFloor st.sampleRate [] [] = ([], []) := by
              simp [mergeForFloor]
            rw [hmZero] at hm
            obtain ⟨hmA, hmQ⟩ := Prod.mk.injEq .. ▸ hm.symm
            subst hmA
            subst hmQ
            have hq1 : ∀ b ∈ ([] : List ByteBuf), b ≠ ([] : List Nat) := by simp
            obtain ⟨ih1, ih2, ih3⟩ :=
              ih (⟨st.sampleRate, st.silenceThreshold, st.minSilenceSamples, st.maxPendingSegments, st.pendingAudio, [], restTexts, st.currentTranscript, st.currentPartialText, st.silenceRunSamples, st.committedCount + 1, st.enqueuedCompleteCount, st.partialCommittedLength, st.turnId, st.segmentSequence + 1⟩ : SegState) allow hq1 _ _ rfl
            have hTailZero := ih3 rfl
            refine ⟨?_, ?_, ?_⟩
            · intro m hm2 hbytes
              exact hallow
            · simp only [segMsgs, List.filterMap_cons]
              refine List.Pairwise.cons ?_ ih2
              intro m hm2 _
              exact hTailZero m hm2
            · intro _ m hm2
              simp only [segMsgs, List.filterMap_cons] at hm2
              rcases List.mem_cons.mp hm2 with h1 | h1
              · subst h1; rfl
              · exact hTailZero m h1
          · rw [if_neg hallow] at heq
            cases heq
            exact ⟨by simp [segMsgs], by simp [segMsgs], by simp [segMsgs]⟩
        | cons audio0 queue0 =>
          rw [hq] at heq
          dsimp only at heq
          rcases hm : mergeForFloor st.sampleRate audio0 queue0 with ⟨audio, queue1⟩
          simp only [hm, Prod.mk.injEq] at heq
          obtain ⟨hevs, hst'⟩ := heq
          subst hevs
          subst hst'
          have haudio0 : audio0 ≠ ([] : List Nat) :=
            hinv audio0 (by rw [hq]; exact List.mem_cons_self _ _)
          obtain ⟨hm1, hm2, hm3⟩ := mergeForFloor_spec st.sampleRate queue0 audio0
          rw [hm] at hm1 hm2 hm3
          have haudio : audio ≠ ([] : List Nat) := hm1 haudio0
          have hq1inv : ∀ b ∈ queue1, b ≠ ([] : List Nat) := by
            intro b hb
            exact hinv b (by rw [hq]; exact List.mem_cons_of_mem _ (hm2 b hb))
          obtain ⟨ih1, ih2, ih3⟩ :=
            ih (⟨st.sampleRate, st.silenceThreshold, st.minSilenceSamples, st.maxPendingSegments, st.pendingAudio, queue1, restTexts, st.currentTranscript, st.currentPartialText, st.silenceRunSamples, st.committedCount + 1, st.enqueuedCompleteCount, st.partialCommittedLength, st.turnId, st.segmentSequence + 1⟩ : SegState) allow hq1inv _ _ rfl
          refine ⟨?_, ?_, ?_⟩
          · intro m hm4 hbytes
            simp only [segMsgs, List.filterMap_cons] at hm4
            rcases List.mem_cons.mp hm4 with h1 | h1
            · subst h1
              simp only at hbytes
              exact absurd (List.length_eq_zero.mp hbytes) haudio
            · exact ih1 m h1 hbytes
          · simp only [segMsgs, List.filterMap_cons]
            refine List.Pairwise.cons ?_ ih2
            intro m hm4 hunder
            obtain ⟨hpos, hdur⟩ := hunder
            simp only at hpos hdur
            have hq1nil : queue1 = [] := by
              by_contra hne
              exact hm3 ⟨hpos, hdur, hne⟩
            subst hq1nil
            exact ih3 rfl m hm4
          · intro habs
            exact absurd habs (by simp)

theorem drainPairing_audio_spec (st : SegState) (allow : Bool)
    (hinv : ∀ b ∈ st.segmentedAudioQueue, b ≠ ([] : List Nat)) :
    ∀ evs st', drainPairing st allow = (evs, st') →
      (∀ m ∈ segMsgs evs, m.audioBytes = 0 → allow = true) ∧
      (segMsgs evs).Pairwise
        (fun a b => 0 < a.audioBytes ∧ a.durationMs < MIN_SEGMENT_DURATION_MS →
          b.audioBytes = 0) ∧
      (st.segmentedAudioQueue = [] → ∀ m ∈ segMsgs evs, m.audioBytes = 0) :=
  drainPairingGo_audio_spec st.pendingTexts.length st allow hinv


theorem commitAudioSegment_fields (st : SegState) :
    (commitAudioSegment st).committedCount = st.committedCount ∧
    (commitAudioSegment st).turnId = st.turnId ∧
    (commitAudioSegment st).sampleRate = st.sampleRate ∧
    (commitAudioSegment st).currentTranscript = st.currentTranscript ∧
    (commitAudioSegment st).currentPartialText = st.currentPartialText ∧
    (commitAudioSegment st).pendingTexts = st.pendingTexts ∧
    (commitAudioSegment st).segmentSequence = st.segmentSequence := by
  simp only [commitAudioSegment]
  split_ifs <;> simp

theorem commitAudioSegment_queue_inv (st : SegState)
    (h : ∀ b ∈ st.segmentedAudioQueue, b ≠ ([] : List Nat)) :
    ∀ b ∈ (commitAudioSegment st).segmentedAudioQueue, b ≠ ([] : List Nat) := by
  simp only [commitAudioSegment]
  split_ifs with h1 h2 h3
  · exact h
  · exact h
  · intro b hb
    have hb' : b ∈ st.segmentedAudioQueue ++ [st.pendingAudio.flatten] :=
      List.mem_of_mem_tail hb
    rcases List.mem_append.mp hb' with hmem | hmem
    · exact h b hmem
    · rw [List.mem_singleton.mp hmem]
      exact h2
  · intro b hb
    rcases List.mem_append.mp hb with hmem | hmem
    · exact h b hmem
    · rw [List.mem_singleton.mp hmem]
      exact h2

theorem enqueuePartialIfNeeded_fields (force : Bool) (st : SegState) :
    (enqueuePartialIfNeeded force st).committedCount = st.committedCount ∧
    (enqueuePartialIfNeeded force st).turnId = st.turnId ∧
    (enqueuePartialIfNeeded force st).sampleRate = st.sampleRate ∧
    (enqueuePartialIfNeeded force st).currentTranscript = st.currentTranscript := by
  unfold enqueuePartialIfNeeded
  obtain ⟨hc, ht, hs, htr, _, _, _⟩ := commitAudioSegment_fields st
  by_cases h0 : (jsTrim st.currentPartialText).length = 0
  · rw [if_pos h0]
    cases force <;> simp
  · rw [if_neg h0]
    cases force
    · simp
    · by_cases h1 : (jsTrim st.currentPartialText).length > st.partialCommittedLength
      · simp [h1, hc, ht, hs, htr]
      · simp [h1]

theorem ingestTranscript_fields (payload : Option JsonValue) (st : SegState) :
    (ingestTranscript payload st).committedCount = st.committedCount ∧
    (ingestTranscript payload st).turnId = st.turnId ∧
    (ingestTranscript payload st).sampleRate = st.sampleRate ∧
    (ingestTranscript payload st).segmentedAudioQueue = st.segmentedAudioQueue ∧
    (ingestTranscript payload st).pendingAudio = st.pendingAudio := by
  unfold ingestTranscript
  cases payload.bind extractTranscript
  · exact ⟨rfl, rfl, rfl, rfl, rfl⟩
  · dsimp only
    split_ifs <;> simp

theorem readInt16LE_isOk (buf : ByteBuf) (offset : Nat) (h : offset + 1 < buf.length) :
    ∃ v, readInt16LE buf offset = .ok v := by
  unfold readInt16LE
  cases hd : List.drop offset buf with
  | nil =>
    have hlen := List.length_drop offset buf
    rw [hd] at hlen
    simp at hlen
    omega
  | cons b0 tl =>
    cases tl with
    | nil =>
      have hlen := List.length_drop offset buf
      rw [hd] at hlen
      simp at hlen
      omega
    | cons b1 tl2 =>
      exact ⟨_, rfl⟩

theorem ingestAudioLoopGo_fields (buf : ByteBuf) :
    ∀ (fuel offset sliceStart : Nat) (st : SegState) (st' : SegState) (s' : Nat),
      ingestAudioLoopGo buf fuel offset sliceStart st = .ok (st', s') →
      st'.committedCount = st.committedCount ∧
      st'.turnId = st.turnId ∧
      st'.sampleRate = st.sampleRate ∧
      st'.currentTranscript = st.currentTranscript ∧
      st'.currentPartialText = st.currentPartialText ∧
      st'.pendingTexts = st.pendingTexts ∧
      st'.segmentSequence = st.segmentSequence := by
  intro fuel
  induction fuel with
  | zero =>
    intro offset sliceStart st st' s' heq
    simp only [ingestAudioLoopGo] at heq
    cases heq
    exact ⟨rfl, rfl, rfl, rfl, rfl, rfl, rfl⟩
  | succ n ih =>
    intro offset sliceStart st st' s' heq
    rw [ingestAudioLoopGo.eq_def] at heq
    dsimp only at heq
    by_cases hofs : offset < buf.length
    · rw [if_pos hofs] at heq
      cases hr : readInt16LE buf offset with
      | error e =>
        rw [hr] at heq
        simp only [Bind.bind, Except.bind] at heq
        cases heq
      | ok sample =>
        rw [hr] at heq
        simp only [Bind.bind, Except.bind] at heq
        split_ifs at heq with h1 h2 h3
        all_goals
          first
          | (have hres := ih _ _ _ _ _ heq
             exact hres)
          | (obtain ⟨f1, f2, f3, f4, f5, f6, f7⟩ := ih _ _ _ _ _ heq
             exact ⟨f1.trans ((commitAudioSegment_fields _).1),
                    f2.trans ((commitAudioSegment_fields _).2.1),
                    f3.trans ((commitAudioSegment_fields _).2.2.1),
                    f4.trans ((commitAudioSegment_fields _).2.2.2.1),
                    f5.trans ((commitAudioSegment_fields _).2.2.2.2.1),
                    f6.trans ((commitAudioSegment_fields _).2.2.2.2.2.1),
                    f7.trans ((commitAudioSegment_fields _).2.2.2.2.2.2)⟩)
    · rw [if_neg hofs] at heq
      cases heq
      exact ⟨rfl, rfl, rfl, rfl, rfl, rfl, rfl⟩

theorem ingestAudioChunk_fields (buf : ByteBuf) (st st' : SegState)
    (heq : ingestAudioChunk buf st = .ok st') :
    st'.committedCount = st.committedCount ∧
    st'.turnId = st.turnId ∧
    st'.sampleRate = st.sampleRate ∧
    st'.currentTranscript = st.currentTranscript ∧
    st'.currentPartialText = st.currentPartialText ∧
    st'.pendingTexts = st.pendingTexts ∧
    st'.segmentSequence = st.segmentSequence := by
  unfold ingestAudioChunk at heq
  split_ifs at heq with h0
  · cases heq
    exact ⟨rfl, rfl, rfl, rfl, rfl, rfl, rfl⟩
  · cases hl : ingestAudioLoop buf 0 0 st with
    | error e =>
      rw [hl] at heq
      simp only [Bind.bind, Except.bind] at heq
      cases heq
    | ok pair =>
      rw [hl] at heq
      simp only [Bind.bind, Except.bind] at heq
      obtain ⟨stMid, sliceStart⟩ := pair
      have hfields := ingestAudioLoopGo_fields buf (buf.length - 0) 0 0 st stMid sliceStart hl
      split_ifs at heq <;> cases heq
      · exact hfields
      · exact hfields

theorem ingestAudioChunks_fields :
    ∀ (chunks : List ByteBuf) (st st' : SegState),
      ingestAudioChunks chunks st = .ok st' →
      st'.committedCount = st.committedCount ∧
      st'.turnId = st.turnId ∧
      st'.sampleRate = st.sampleRate ∧
      st'.currentTranscript = st.currentTranscript ∧
      st'.currentPartialText = st.currentPartialText ∧
      st'.pendingTexts = st.pendingTexts ∧
      st'.segmentSequence = st.segmentSequence := by
  intro chunks
  induction chunks with
  | nil =>
    intro st st' heq
    cases heq
    exact ⟨rfl, rfl, rfl, rfl, rfl, rfl, rfl⟩
  | cons c rest ih =>
    intro st st' heq
    unfold ingestAudioChunks at heq
    cases hc : ingestAudioChunk c st with
    | error e =>
      rw [hc] at heq
      simp only [Bind.bind, Except.bind] at heq
      cases heq
    | ok stMid =>
      rw [hc] at heq
      simp only [Bind.bind, Except.bind] at heq
      obtain ⟨a1, a2, a3, a4, a5, a6, a7⟩ := ingestAudioChunk_fields c st stMid hc
      obtain ⟨b1, b2, b3, b4, b5, b6, b7⟩ := ih stMid st' heq
      exact ⟨b1.trans a1, b2.trans a2, b3.trans a3, b4.trans a4,
             b5.trans a5, b6.trans a6, b7.trans a7⟩

theorem ingestAudioLoopGo_even_ok (buf : ByteBuf) (hbuf : buf.length % 2 = 0) :
    ∀ (fuel offset sliceStart : Nat) (st : SegState), offset % 2 = 0 →
      ∃ r, ingestAudioLoopGo buf fuel offset sliceStart st = .ok r := by
  intro fuel
  induction fuel with
  | zero =>
    intro offset sliceStart st hoff
    exact ⟨_, rfl⟩
  | succ n ih =>
    intro offset sliceStart st hoff
    rw [ingestAudioLoopGo.eq_def]
    dsimp only
    by_cases hofs : offset < buf.length
    · rw [if_pos hofs]
      obtain ⟨v, hv⟩ := readInt16LE_isOk buf offset (by omega)
      rw [hv]
      simp only [Bind.bind, Except.bind]
      have hoff2 : (offset + 2) % 2 = 0 := by omega
      split_ifs
      · exact ih (offset + 2) _ _ hoff2
      · exact ih (offset + 2) _ _ hoff2
      · exact ih (offset + 2) _ _ hoff2
      · exact ih (offset + 2) _ _ hoff2
    · rw [if_neg hofs]
      exact ⟨_, rfl⟩

theorem ingestAudioChunk_even_ok (buf : ByteBuf) (hbuf : buf.length % 2 = 0)
    (st : SegState) : ∃ st', ingestAudioChunk buf st = .ok st' := by
  unfold ingestAudioChunk
  split_ifs with h0
  · exact ⟨st, rfl⟩
  · obtain ⟨r, hr⟩ := ingestAudioLoopGo_even_ok buf hbuf (buf.length - 0) 0 0 st (by omega)
    rw [show ingestAudioLoop buf 0 0 st = ingestAudioLoopGo buf (buf.length - 0) 0 0 st from rfl, hr]
    simp only [Bind.bind, Except.bind]
    obtain ⟨stMid, sliceStart⟩ := r
    split_ifs
    · exact ⟨_, rfl⟩
    · exact ⟨_, rfl⟩

theorem ingestAudioChunks_even_ok :
    ∀ (chunks : List ByteBuf), (∀ b ∈ chunks, b.length % 2 = 0) →
    ∀ (st : SegState), ∃ st', ingestAudioChunks chunks st = .ok st' := by
  intro chunks
  induction chunks with
  | nil =>
    intro _ st
    exact ⟨st, rfl⟩
  | cons c rest ih =>
    intro heven st
    unfold ingestAudioChunks
    obtain ⟨stMid, hc⟩ := ingestAudioChunk_even_ok c (heven c (List.mem_cons_self c rest)) st
    rw [hc]
    simp only [Bind.bind, Except.bind]
    exact ih (fun b hb => heven b (List.mem_cons_of_mem c hb)) stMid


theorem flushPending_spec (force : Bool) (st : SegState) :
    ∀ evs st', flushPending force st = (evs, st') →
      (∀ e ∈ evs, e.isSeg = true) ∧
      (segMsgs evs).map SegmentCommitMsg.index =
        List.range' st.committedCount (segMsgs evs).length ∧
      st'.committedCount = st.committedCount + (segMsgs evs).length ∧
      (∀ m ∈ segMsgs evs, m.turnId = st.turnId ∧
        m.durationMs = bytesToMillis m.audioBytes st.sampleRate ∧
        m.nominalDurationMs = m.durationMs ∧
        m.audioSamples = m.audioBytes / 2 ∧ m.text ≠ "") ∧
      st'.turnId = st.turnId ∧
      st'.currentTranscript = st.currentTranscript ∧
      st'.sampleRate = st.sampleRate := by
  intro evs st' heq
  unfold flushPending at heq
  obtain ⟨d1, d2, d3, d4, d5⟩ :=
    drainPairing_spec (if force then commitAudioSegment st else st) force evs st' heq
  obtain ⟨p1, p2, p3, p4, p5, p6, p7, p8, p9, p10, p11⟩ := d5
  have hcc : (if force then commitAudioSegment st else st).committedCount = st.committedCount := by
    cases force
    · rfl
    · exact (commitAudioSegment_fields st).1
  have hturn : (if force then commitAudioSegment st else st).turnId = st.turnId := by
    cases force
    · rfl
    · exact (commitAudioSegment_fields st).2.1
  have hsr : (if force then commitAudioSegment st else st).sampleRate = st.sampleRate := by
    cases force
    · rfl
    · exact (commitAudioSegment_fields st).2.2.1
  have htr : (if force then commitAudioSegment st else st).currentTranscript = st.currentTranscript := by
    cases force
    · rfl
    · exact (commitAudioSegment_fields st).2.2.2.1
  refine ⟨d1, by rw [← hcc]; exact d2, by rw [← hcc]; exact d3, ?_, p11.trans hturn,
    p6.trans htr, p1.trans hsr⟩
  intro m hm
  obtain ⟨m1, m2, m3, m4, m5⟩ := d4 m hm
  exact ⟨m1.trans hturn, by rw [← hsr]; exact m2, m3, m4, m5⟩

theorem handleUpstreamPayload_spec (payload : Option JsonValue) (chunks : List ByteBuf)
    (st : SegState) :
    ∀ evs gc st', handleUpstreamPayload payload chunks st = .ok (evs, gc, st') →
      (∀ e ∈ evs, e.isSeg = true) ∧
      (segMsgs evs).map SegmentCommitMsg.index =
        List.range' st.committedCount (segMsgs evs).length ∧
      st'.committedCount = st.committedCount + (segMsgs evs).length ∧
      st'.turnId = st.turnId := by
  intro evs gc st' heq
  unfold handleUpstreamPayload at heq
  dsimp only at heq
  cases hch : ingestAudioChunks chunks (enqueuePartialIfNeeded false (ingestTranscript payload st)) with
  | error e =>
    rw [hch] at heq
    simp only [Bind.bind, Except.bind] at heq
    cases heq
  | ok stMid =>
    rw [hch] at heq
    simp only [Bind.bind, Except.bind] at heq
    rcases hfl : flushPending false stMid with ⟨evsF, stF⟩
    rw [hfl] at heq
    simp only [Except.ok.injEq, Prod.mk.injEq] at heq
    obtain ⟨hevs, hgc, hst'⟩ := heq
    subst hevs
    subst hst'
    obtain ⟨i1, i2, i3, _, _⟩ := ingestTranscript_fields payload st
    obtain ⟨e1, e2, e3, _⟩ := enqueuePartialIfNeeded_fields false (ingestTranscript payload st)
    obtain ⟨c1, c2, c3, _, _, _, _⟩ := ingestAudioChunks_fields chunks _ stMid hch
    have hmidcc : stMid.committedCount = st.committedCount := (c1.trans e1).trans i1
    have hmidturn : stMid.turnId = st.turnId := (c2.trans e2).trans i2
    obtain ⟨f1, f2, f3, _, f5, _, _⟩ := flushPending_spec false stMid evsF stF hfl
    exact ⟨f1, by rw [← hmidcc]; exact f2, by rw [← hmidcc]; exact f3, f5.trans hmidturn⟩

theorem range'_concat (c n1 n2 : Nat) :
    List.range' c n1 ++ List.range' (c + n1) n2 = List.range' c (n1 + n2) := by
  have h := List.range'_append c n1 n2 1
  simp only [Nat.one_mul] at h
  rw [h, Nat.add_comm n2 n1]

theorem runOps_spec :
    ∀ (ops : List SegOp) (st : SegState) (evs : List SegEvent) (st' : SegState),
      runOps ops st = .ok (evs, st') →
      (∀ e ∈ evs, e.isSeg = true) ∧
      (segMsgs evs).map SegmentCommitMsg.index =
        List.range' st.committedCount (segMsgs evs).length ∧
      st'.committedCount = st.committedCount + (segMsgs evs).length ∧
      st'.turnId = st.turnId := by
  intro ops
  induction ops with
  | nil =>
    intro st evs st' heq
    cases heq
    exact ⟨by simp, by simp [segMsgs], by simp [segMsgs], rfl⟩
  | cons op rest ih =>
    intro st evs st' heq
    unfold runOps at heq
    have hsplit : ∃ evs1 st1, (∀ e ∈ evs1, e.isSeg = true) ∧
        (segMsgs evs1).map SegmentCommitMsg.index =
          List.range' st.committedCount (segMsgs evs1).length ∧
        st1.committedCount = st.committedCount + (segMsgs evs1).length ∧
        st1.turnId = st.turnId ∧
        (do
          let (evs2, st2) ← runOps rest st1
          Except.ok (evs1 ++ evs2, st2)) = Except.ok (evs, st') := by
      cases op with
      | handle payload chunks =>
        dsimp only at heq
        cases hh : handleUpstreamPayload payload chunks st with
        | error e =>
          rw [hh] at heq
          simp only [Bind.bind, Except.bind] at heq
          cases heq
        | ok trip =>
          obtain ⟨evs1, gc, st1⟩ := trip
          rw [hh] at heq
          simp only [Bind.bind, Except.bind] at heq
          obtain ⟨h1, h2, h3, h4⟩ := handleUpstreamPayload_spec payload chunks st evs1 gc st1 hh
          exact ⟨evs1, st1, h1, h2, h3, h4, heq⟩
      | flush force =>
        dsimp only at heq
        rcases hf : flushPending force st with ⟨evs1, st1⟩
        rw [hf] at heq
        simp only [Bind.bind, Except.bind] at heq
        obtain ⟨h1, h2, h3, h4, h5, _, _⟩ := flushPending_spec force st evs1 st1 hf
        exact ⟨evs1, st1, h1, h2, h3, h5, heq⟩
    obtain ⟨evs1, st1, h1, h2, h3, h4, heq2⟩ := hsplit
    cases hrest : runOps rest st1 with
    | error e =>
      rw [hrest] at heq2
      simp only [Bind.bind, Except.bind] at heq2
      cases heq2
    | ok pair =>
      obtain ⟨evs2, st2⟩ := pair
      rw [hrest] at heq2
      simp only [Bind.bind, Except.bind, Except.ok.injEq, Prod.mk.injEq] at heq2
      obtain ⟨hevs, hst'⟩ := heq2
      subst hevs
      subst hst'
      obtain ⟨r1, r2, r3, r4⟩ := ih st1 evs2 st2 hrest
      refine ⟨?_, ?_, ?_, r4.trans h4⟩
      · intro e he
        rcases List.mem_append.mp he with hm | hm
        · exact h1 e hm
        · exact r1 e hm
      · simp only [segMsgs, List.filterMap_append, List.map_append, List.length_append]
        simp only [segMsgs] at h2 r2 h3
        rw [h2, r2, h3]
        exact range'_concat _ _ _
      · simp only [segMsgs, List.filterMap_append, List.length_append]
        simp only [segMsgs] at h3 r3
        omega

theorem string_eq_empty_of_length (s : String) (h : s.length = 0) : s = "" := by
  cases s with
  | mk data =>
    simp only [String.length] at h
    rw [List.length_eq_zero] at h
    rw [h]

theorem finalizeTurnInternal_spec (force : Bool) (st : SegState) :
    ∀ evs st', finalizeTurnInternal force st = (evs, st') →
      (∃ evsF rest, evs = evsF ++ rest ∧
        (∀ e ∈ evsF, e.isSeg = true) ∧
        (segMsgs evsF).map SegmentCommitMsg.index =
          List.range' st.committedCount (segMsgs evsF).length ∧
        (rest = [] ∨ ∃ m, rest = [SegEvent.turn m] ∧ m.turnId = st.turnId)) ∧
      st'.turnId = st.turnId + 1 ∧
      st'.pendingAudio = [] ∧
      st'.segmentedAudioQueue = [] ∧
      st'.pendingTexts = [] ∧
      ((∃ m, SegEvent.turn m ∈ evs) ↔
        (jsTrim st.currentTranscript ≠ "" ∨ 0 < st.committedCount ∨
          ∃ e ∈ evs, e.isSeg = true)) := by
  intro evs st' heq
  unfold finalizeTurnInternal at heq
  dsimp only at heq
  rcases hfl : flushPending force (enqueuePartialIfNeeded force st) with ⟨evsF, st1⟩
  rw [hfl] at heq
  dsimp only at heq
  obtain ⟨e1, e2, e3, e4⟩ := enqueuePartialIfNeeded_fields force st
  obtain ⟨f1, f2, f3, f4, f5, f6, f7⟩ :=
    flushPending_spec force (enqueuePartialIfNeeded force st) evsF st1 hfl
  have hcc0 : st1.committedCount = st.committedCount + (segMsgs evsF).length := by
    rw [f3, e1]
  have hturn1 : st1.turnId = st.turnId := f5.trans e2
  have htr1 : st1.currentTranscript = st.currentTranscript := f6.trans e4
  have hnoTurnF : ∀ m, SegEvent.turn m ∈ evsF → False := by
    intro m hm
    have := f1 _ hm
    simp [SegEvent.isSeg] at this
  split_ifs at heq with hcond
  · rw [Prod.mk.injEq] at heq
    obtain ⟨hevs, hst'⟩ := heq
    subst hevs
    subst hst'
    refine ⟨⟨evsF, [SegEvent.turn ⟨st1.turnId, jsTrim st1.currentTranscript, st1.committedCount⟩],
      rfl, f1, by rw [e1] at f2; exact f2, Or.inr ⟨_, rfl, by rw [hturn1]⟩⟩,
      by simp [prepareNextTurn, hturn1], by simp [prepareNextTurn],
      by simp [prepareNextTurn], by simp [prepareNextTurn], ?_⟩
    constructor
    · intro _
      rcases hcond with hfin | hccpos | hemit
      · left
        rw [htr1] at hfin
        intro hnil
        rw [hnil] at hfin
        simp at hfin
      · rw [hcc0] at hccpos
        by_cases hstcc : 0 < st.committedCount
        · right; left; exact hstcc
        · right; right
          have hlen : 0 < (segMsgs evsF).length := by omega
          obtain ⟨m, hm⟩ := List.exists_mem_of_length_pos hlen
          have hmem : SegEvent.seg m ∈ evsF := by
            simp only [segMsgs, List.mem_filterMap] at hm
            obtain ⟨e, he, hesome⟩ := hm
            have hseg : e = SegEvent.seg m := by
              cases e
              · simp at hesome
                rw [hesome]
              · simp at hesome
            rw [← hseg]
            exact he
          exact ⟨SegEvent.seg m, List.mem_append_left _ hmem, rfl⟩
      · rw [hcc0] at hemit
        have hlen : 0 < (segMsgs evsF).length := by omega
        obtain ⟨m, hm⟩ := List.exists_mem_of_length_pos hlen
        right; right
        have hmem : SegEvent.seg m ∈ evsF := by
          simp only [segMsgs, List.mem_filterMap] at hm
          obtain ⟨e, he, hesome⟩ := hm
          have hseg : e = SegEvent.seg m := by
            cases e
            · simp at hesome
              rw [hesome]
            · simp at hesome
          rw [← hseg]
          exact he
        exact ⟨SegEvent.seg m, List.mem_append_left _ hmem, rfl⟩
    · intro _
      exact ⟨_, List.mem_append_right _ (List.mem_singleton_self _)⟩
  · rw [Prod.mk.injEq] at heq
    obtain ⟨hevs, hst'⟩ := heq
    subst hevs
    subst hst'
    push_neg at hcond
    obtain ⟨hfin, hcc1, hemit⟩ := hcond
    refine ⟨⟨evsF, [], by simp, f1, by rw [e1] at f2; exact f2, Or.inl rfl⟩,
      by simp [prepareNextTurn, hturn1], by simp [prepareNextTurn],
      by simp [prepareNextTurn], by simp [prepareNextTurn], ?_⟩
    constructor
    · intro ⟨m, hm⟩
      exact absurd hm (fun h => hnoTurnF m h)
    · intro hrhs
      rcases hrhs with h | h | h
      · exfalso
        apply h
        rw [← htr1]
        have hlen0 : (jsTrim st1.currentTranscript).length = 0 := by omega
        exact string_eq_empty_of_length _ hlen0
      · exfalso
        rw [hcc0] at hcc1
        omega
      · exfalso
        obtain ⟨e, he, hseg⟩ := h
        have hpos : 0 < (segMsgs evsF).length := by
          cases e
          case seg m =>
            have hmm : m ∈ segMsgs evsF := by
              simp only [segMsgs, List.mem_filterMap]
              exact ⟨_, he, rfl⟩
            exact List.length_pos.mpr (fun hnil => by rw [hnil] at hmm; cases hmm)
          case turn m => simp [SegEvent.isSeg] at hseg
        omega


/-! ### C10 — turn finalization always advances the turn counter -/

/-- **C10.** Every turn finalization increments `turnId` by exactly one and
leaves `pendingAudio`, `segmentedAudioQueue` and `pendingTexts` empty, even
when no `TURN_COMMIT` is emitted; any emitted `TURN_COMMIT` carries the
pre-increment `turnId`, and the non-finalizing operations never change
`turnId` — so the `turnId`s of successive `TURN_COMMIT`s strictly increase
but may skip integers (concrete run: commits carry `turnId` 1 and then 3). -/
theorem finalize_increments_turn_and_clears :
    (∀ (force : Bool) (st : SegState),
      (finalizeTurnInternal force st).2.turnId = st.turnId + 1 ∧
      (finalizeTurnInternal force st).2.pendingAudio = [] ∧
      (finalizeTurnInternal force st).2.segmentedAudioQueue = [] ∧
      (finalizeTurnInternal force st).2.pendingTexts = [] ∧
      (∀ m, SegEvent.turn m ∈ (finalizeTurnInternal force st).1 → m.turnId = st.turnId)) ∧
    (∀ (force : Bool) (st : SegState), ((flushPending force st).2).turnId = st.turnId) ∧
    (∀ (payload : Option JsonValue) (chunks : List ByteBuf) (st : SegState) evs gc st',
      handleUpstreamPayload payload chunks st = .ok (evs, gc, st') →
      st'.turnId = st.turnId) ∧
    (turnIdsOf c10Fin1.1 = [1] ∧ c10Fin2.1 = [] ∧ turnIdsOf c10Fin3.1 = [3]) := by
  refine ⟨?_, ?_, ?_, by decide⟩
  · intro force st
    obtain ⟨⟨evsF, rest, hdecomp, hallseg, _, hrest⟩, h2, h3, h4, h5, _⟩ :=
      finalizeTurnInternal_spec force st (finalizeTurnInternal force st).1
        (finalizeTurnInternal force st).2 rfl
    refine ⟨h2, h3, h4, h5, ?_⟩
    intro m hm
    rw [hdecomp] at hm
    rcases List.mem_append.mp hm with hmem | hmem
    · have := hallseg _ hmem
      simp [SegEvent.isSeg] at this
    · rcases hrest with hnil | ⟨m0, hm0, hid⟩
      · rw [hnil] at hmem
        cases hmem
      · rw [hm0] at hmem
        rw [List.mem_singleton] at hmem
        cases hmem
        exact hid
  · intro force st
    obtain ⟨_, _, _, _, h5, _, _⟩ :=
      flushPending_spec force st (flushPending force st).1 (flushPending force st).2 rfl
    exact h5
  · intro payload chunks st evs gc st' heq
    exact (handleUpstreamPayload_spec payload chunks st evs gc st' heq).2.2.2

/-- **C10 (witness).** Applying the theorem to the concrete turn-skipping
run: the first finalization advances `turnId` from 1 to 2. -/
theorem finalize_increments_turn_and_clears_witness :
    (finalizeTurnInternal true c10State1).2.turnId = c10State1.turnId + 1 ∧
    c10State1.turnId = 1 := by
  have h := finalize_increments_turn_and_clears
  exact ⟨(h.1 true c10State1).1, by decide⟩

/-! ### C4 — `TURN_COMMIT` emission condition -/

/-- **C4.** Finalizing a turn emits a `TURN_COMMIT` iff the trimmed
transcript is non-empty, or segments were committed earlier in the turn, or
the final drain emitted a segment; in particular, ingesting only
`{generationComplete:true}` (no transcript, no audio) and force-finalizing
produces no events at all. -/
theorem turn_commit_emission_iff :
    (∀ (force : Bool) (st : SegState),
      ((∃ m, SegEvent.turn m ∈ (finalizeTurnInternal force st).1) ↔
        (jsTrim st.currentTranscript ≠ "" ∨ 0 < st.committedCount ∨
          ∃ e ∈ (finalizeTurnInternal force st).1, e.isSeg = true))) ∧
    (Except.toOption (handleUpstreamPayload (some payloadGenComplete) [] freshSegmenter) =
        some ([], true, freshSegmenter) ∧
      (finalizeTurnInternal true freshSegmenter).1 = []) := by
  refine ⟨?_, by decide, by decide⟩
  intro force st
  exact (finalizeTurnInternal_spec force st (finalizeTurnInternal force st).1
    (finalizeTurnInternal force st).2 rfl).2.2.2.2.2


/-! ### C2 — per-turn event shape -/

/-- **C2.** For every turn (any sequence of `handleUpstreamPayload` /
`flushPending` calls from a turn-start state, optionally closed by a
finalization), the emitted events form `SegmentCommit* TurnCommit?`: all
`SEGMENT_COMMIT`s precede the at-most-one `TURN_COMMIT`, and their `index`
fields are exactly `0, 1, 2, …` in emission order. -/
theorem turn_event_shape (ops : List SegOp) (st : SegState) (evs : List SegEvent)
    (st₁ : SegState) (hcc : st.committedCount = 0)
    (hrun : runOps ops st = .ok (evs, st₁)) :
    TurnShape evs ∧ ∀ force, TurnShape (evs ++ (finalizeTurnInternal force st₁).1) := by
  obtain ⟨r1, r2, r3, _⟩ := runOps_spec ops st evs st₁ hrun
  rw [hcc] at r2 r3
  constructor
  · refine ⟨?_, evs, [], by simp, r1, Or.inl rfl⟩
    rw [r2, List.range_eq_range']
  · intro force
    obtain ⟨⟨evsF, rest, hdecomp, hallseg, hidx, hrest⟩, _⟩ :=
      finalizeTurnInternal_spec force st₁ (finalizeTurnInternal force st₁).1
        (finalizeTurnInternal force st₁).2 rfl
    rw [r3] at hidx
    constructor
    · rw [hdecomp, ← List.append_assoc]
      have hsegs : segMsgs (evs ++ evsF ++ rest) = segMsgs evs ++ segMsgs evsF := by
        simp only [segMsgs, List.filterMap_append]
        rcases hrest with hnil | ⟨m, hm, _⟩
        · rw [hnil]
          simp
        · rw [hm]
          simp [List.filterMap]
      rw [hsegs, List.map_append, List.length_append, r2, hidx, range'_concat,
        List.range_eq_range']
    · refine ⟨evs ++ evsF, rest, by rw [hdecomp, List.append_assoc], ?_,
        hrest.imp id (fun hex => hex.elim (fun m hm => ⟨m, hm.1⟩))⟩
      intro e he
      rcases List.mem_append.mp he with hm | hm
      · exact r1 e hm
      · exact hallseg e hm

/-- **C2 (witness).** A concrete one-payload turn: one aligned sentence, then
a forced finalization — the theorem applies and yields the required shape. -/
theorem turn_event_shape_witness :
    TurnShape c2RunEvents ∧
    TurnShape (c2RunEvents ++ (finalizeTurnInternal true c2RunState).1) := by
  have h := turn_event_shape c2Ops segmenterCfgA c2RunEvents c2RunState (by decide) rfl
  exact ⟨h.1, h.2 true⟩


/-! ### C1 — segment duration fields and the 300 ms floor -/

/-- **C1 (counterexample).** The claim "either `audioBytes = 0` or
`durationMs ≥ 300`" fails: one aligned sentence whose only audio is 48
bytes is emitted with `audioBytes = 48` and `durationMs = 1`, because the
merge loop stops when the segmented-audio queue empties. -/
theorem segment_duration_floor_counterexample :
    (segMsgs c1RunEvents).length = 1 ∧
    ∀ m ∈ segMsgs c1RunEvents,
      m.audioBytes = 48 ∧ m.durationMs = 1 ∧
      ¬(m.audioBytes = 0 ∨ MIN_SEGMENT_DURATION_MS ≤ m.durationMs) := by
  decide

/-- **C1 (amended).** For every `SEGMENT_COMMIT` emitted by a flush whose
queued audio buffers are non-empty (an invariant of the segmenter):
`durationMs = round((audioBytes/2)/sampleRate·1000)` and
`audioSamples = ⌊audioBytes/2⌋`; `audioBytes = 0` happens only under forced
finalization (`allowSilentAudio`); and a segment may fall below the 300 ms
floor only when the merge exhausted the queue — in that case every later
segment of the same drain has `audioBytes = 0`. -/
theorem segment_duration_fields_and_floor (force : Bool) (st : SegState)
    (hq : ∀ b ∈ st.segmentedAudioQueue, b ≠ ([] : List Nat)) :
    (∀ m ∈ segMsgs (flushPending force st).1,
      m.durationMs = bytesToMillis m.audioBytes st.sampleRate ∧
      m.audioSamples = m.audioBytes / 2 ∧
      (m.audioBytes = 0 → force = true)) ∧
    (segMsgs (flushPending force st).1).Pairwise
      (fun a b => 0 < a.audioBytes ∧ a.durationMs < MIN_SEGMENT_DURATION_MS →
        b.audioBytes = 0) := by
  rcases hfl : flushPending force st with ⟨evs, st'⟩
  have hq2 : ∀ b ∈ (if force then commitAudioSegment st else st).segmentedAudioQueue,
      b ≠ ([] : List Nat) := by
    cases force
    · exact hq
    · exact commitAudioSegment_queue_inv st hq
  have hdrain : drainPairing (if force then commitAudioSegment st else st) force = (evs, st') := by
    rw [← hfl]
    rfl
  obtain ⟨a1, a2, _⟩ :=
    drainPairing_audio_spec (if force then commitAudioSegment st else st) force hq2 evs st' hdrain
  obtain ⟨_, _, _, d4, _⟩ := flushPending_spec force st evs st' hfl
  dsimp only
  refine ⟨?_, a2⟩
  intro m hm
  obtain ⟨_, m2, _, m4, _⟩ := d4 m hm
  exact ⟨m2, m4, a1 m hm⟩

/-- **C1 (witness).** The theorem applied to the concrete flush of one
pending sentence against one queued 9600-byte buffer (200 ms at 24 kHz). -/
theorem segment_duration_fields_and_floor_witness :
    (∀ m ∈ segMsgs (flushPending false segmenterCfgB).1,
      m.durationMs = bytesToMillis m.audioBytes segmenterCfgB.sampleRate ∧
      m.audioSamples = m.audioBytes / 2 ∧
      (m.audioBytes = 0 → false = true)) ∧
    (segMsgs (flushPending false segmenterCfgB).1).Pairwise
      (fun a b => 0 < a.audioBytes ∧ a.durationMs < MIN_SEGMENT_DURATION_MS →
        b.audioBytes = 0) := by
  exact segment_duration_fields_and_floor false segmenterCfgB (by decide)


/-! ### C5 — a shrinking transcript drops the pending sentences -/

/-- **C5.** If a newly ingested transcript parses to fewer complete
sentences than the segmenter's `enqueuedCompleteCount`, all unemitted
`pendingTexts` are dropped and `enqueuedCompleteCount` and
`partialCommittedLength` are reset; consequently, feeding `"ABC。DEF。"`
(with audio for one segment) and then the shrunken `"ABC。"` emits exactly
one `SEGMENT_COMMIT`, for `"ABC。"`, and the enqueued-but-unpaired
`"DEF。"` is dropped on the shrink and never committed. -/
theorem transcript_shrink_drops_pending (payload : Option JsonValue)
    (st : SegState) (t : String)
    (hex : payload.bind extractTranscript = some t)
    (hshrink : (parseSentences t).complete.length < st.enqueuedCompleteCount) :
    ((ingestTranscript payload st).pendingTexts = [] ∧
     (ingestTranscript payload st).enqueuedCompleteCount =
       (parseSentences t).complete.length ∧
     (ingestTranscript payload st).partialCommittedLength = 0) ∧
    ((segMsgs (runEvents c5Step1)).map SegmentCommitMsg.text = ["ABC。"] ∧
     (runState segmenterCfgA c5Step1).pendingTexts = ["DEF。"] ∧
     runEvents c5Step2 = [] ∧
     (runState (runState segmenterCfgA c5Step1) c5Step2).pendingTexts = []) := by
  refine ⟨?_, by decide⟩
  unfold ingestTranscript
  rw [hex]
  dsimp only
  split_ifs with h1 h2 h3 <;> dsimp only at * <;>
    first
      | exact ⟨rfl, rfl, rfl⟩
      | omega

/-- **C5 (witness).** The general shrink property applied to the concrete
scenario: the shrunken transcript `"ABC。"` ingested into the state left by
step 1 (which holds the unpaired `"DEF。"`). -/
theorem transcript_shrink_drops_pending_witness :
    ((ingestTranscript (some (payloadText "ABC。"))
        (runState segmenterCfgA c5Step1)).pendingTexts = [] ∧
     (ingestTranscript (some (payloadText "ABC。"))
        (runState segmenterCfgA c5Step1)).enqueuedCompleteCount =
       (parseSentences "ABC。").complete.length ∧
     (ingestTranscript (some (payloadText "ABC。"))
        (runState segmenterCfgA c5Step1)).partialCommittedLength = 0) ∧
    ((segMsgs (runEvents c5Step1)).map SegmentCommitMsg.text = ["ABC。"] ∧
     (runState segmenterCfgA c5Step1).pendingTexts = ["DEF。"] ∧
     runEvents c5Step2 = [] ∧
     (runState (runState segmenterCfgA c5Step1) c5Step2).pendingTexts = []) :=
  transcript_shrink_drops_pending (some (payloadText "ABC。"))
    (runState segmenterCfgA c5Step1) "ABC。" (by decide) (by decide)

/-! ### C6 — caption extraction precedence and candidate scoring -/

/-- Loop invariant of `selectBestCandidate`: starting from a best that
carries its own candidate score and dominates every already-seen string
(strictly longer on score ties), the loop returns a best that still carries
its own score, never went down, and dominates every remaining candidate
with a non-empty trim. -/
theorem selectBestLoop_spec :
    ∀ (cands seen : List String) (best : Option (String × Nat)),
      (∀ b0 bs0, best = some (b0, bs0) → bs0 = computeCandidateScore b0 ∧
        ∀ s ∈ seen, computeCandidateScore s ≤ bs0 ∧
          (computeCandidateScore s = bs0 → s.length ≤ b0.length)) →
      (best = none → seen = []) →
      ∀ b bs, selectBestLoop cands seen best = some (b, bs) →
        bs = computeCandidateScore b ∧
        (∀ c ∈ cands, jsTrim c ≠ "" →
          computeCandidateScore (jsTrim c) ≤ bs ∧
          (computeCandidateScore (jsTrim c) = bs → (jsTrim c).length ≤ b.length)) ∧
        (∀ b0 bs0, best = some (b0, bs0) → bs0 ≤ bs ∧
          (bs0 = bs → b0.length ≤ b.length)) := by
  intro cands
  induction cands with
  | nil =>
    intro seen best h1 h2 b bs heq
    rw [selectBestLoop.eq_def] at heq
    dsimp only at heq
    refine ⟨(h1 b bs heq).1, ?_, ?_⟩
    · intro c hc
      cases hc
    intro b0 bs0 hb0
    rw [heq] at hb0
    simp only [Option.some.injEq, Prod.mk.injEq] at hb0
    obtain ⟨hbe, hse⟩ := hb0
    subst hbe
    subst hse
    exact ⟨le_refl _, fun _ => le_refl _⟩
  | cons c rest ih =>
    intro seen best h1 h2 b bs heq
    rw [selectBestLoop.eq_def] at heq
    dsimp only at heq
    by_cases hskip : jsTrim c = "" ∨ seen.contains (jsTrim c) = true
    · rw [if_pos hskip] at heq
      obtain ⟨q1, q2, q3⟩ := ih seen best h1 h2 b bs heq
      refine ⟨q1, ?_, q3⟩
      intro c' hc' htrim'
      rcases List.mem_cons.mp hc' with hceq | hcr
      · subst hceq
        have hcont : seen.contains (jsTrim c') = true := by
          rcases hskip with he | hct
          · exact absurd he htrim'
          · exact hct
        have hmem : jsTrim c' ∈ seen := by
          simpa using hcont
        cases hbest : best with
        | none =>
          have hseen : seen = [] := h2 hbest
          rw [hseen] at hmem
          cases hmem
        | some p =>
          obtain ⟨b0, bs0⟩ := p
          obtain ⟨hb0s, hdom⟩ := h1 b0 bs0 hbest
          obtain ⟨hle, htie⟩ := hdom (jsTrim c') hmem
          obtain ⟨hble, hbtie⟩ := q3 b0 bs0 hbest
          refine ⟨by omega, ?_⟩
          intro hteq
          have ht1 := htie (by omega)
          have ht2 := hbtie (by omega)
          omega
      · exact q2 c' hcr htrim'
    · rw [if_neg hskip] at heq
      push_neg at hskip
      obtain ⟨htne, hncont⟩ := hskip
      cases hbest : best with
      | none =>
        rw [hbest] at heq
        dsimp only at heq
        have hseen : seen = [] := h2 hbest
        subst hseen
        have h1' : ∀ b0 bs0,
            (some (jsTrim c, computeCandidateScore (jsTrim c)) :
              Option (String × Nat)) = some (b0, bs0) →
            bs0 = computeCandidateScore b0 ∧
            ∀ s ∈ [jsTrim c], computeCandidateScore s ≤ bs0 ∧
              (computeCandidateScore s = bs0 → s.length ≤ b0.length) := by
          intro b0 bs0 hinj
          simp only [Option.some.injEq, Prod.mk.injEq] at hinj
          obtain ⟨hbe, hse⟩ := hinj
          subst hbe
          subst hse
          refine ⟨rfl, ?_⟩
          intro s hs
          simp only [List.mem_singleton] at hs
          subst hs
          exact ⟨le_refl _, fun _ => le_refl _⟩
        obtain ⟨q1, q2, q3⟩ := ih [jsTrim c] _ h1'
          (by intro h; exact absurd h (by simp)) b bs heq
        refine ⟨q1, ?_, ?_⟩
        · intro c' hc' htrim'
          rcases List.mem_cons.mp hc' with hceq | hcr
          · subst hceq
            exact q3 (jsTrim c') (computeCandidateScore (jsTrim c')) rfl
          · exact q2 c' hcr htrim'
        · intro b0 bs0 hb0
          exact absurd hb0 (by simp)
      | some p =>
        obtain ⟨b0, bs0⟩ := p
        rw [hbest] at heq
        dsimp only at heq
        obtain ⟨hb0s, hdom⟩ := h1 b0 bs0 hbest
        by_cases hrepl : computeCandidateScore (jsTrim c) > bs0 ∨
            (computeCandidateScore (jsTrim c) = bs0 ∧ (jsTrim c).length > b0.length)
        · rw [if_pos hrepl] at heq
          have h1' : ∀ b0' bs0',
              (some (jsTrim c, computeCandidateScore (jsTrim c)) :
                Option (String × Nat)) = some (b0', bs0') →
              bs0' = computeCandidateScore b0' ∧
              ∀ s ∈ jsTrim c :: seen, computeCandidateScore s ≤ bs0' ∧
                (computeCandidateScore s = bs0' → s.length ≤ b0'.length) := by
            intro b0' bs0' hinj
            simp only [Option.some.injEq, Prod.mk.injEq] at hinj
            obtain ⟨hbe, hse⟩ := hinj
            subst hbe
            subst hse
            refine ⟨rfl, ?_⟩
            intro s hs
            rcases List.mem_cons.mp hs with hseq | hsmem
            · subst hseq
              exact ⟨le_refl _, fun _ => le_refl _⟩
            · obtain ⟨hsle, hstie⟩ := hdom s hsmem
              rcases hrepl with hgt | ⟨hteq, hlen⟩
              · refine ⟨by omega, ?_⟩
                intro hcontra
                exact absurd hcontra (by omega)
              · refine ⟨by omega, ?_⟩
                intro hseqt
                have := hstie (by omega)
                omega
          obtain ⟨q1, q2, q3⟩ := ih (jsTrim c :: seen) _ h1'
            (by intro h; exact absurd h (by simp)) b bs heq
          obtain ⟨hts, htt⟩ := q3 (jsTrim c) (computeCandidateScore (jsTrim c)) rfl
          refine ⟨q1, ?_, ?_⟩
          · intro c' hc' htrim'
            rcases List.mem_cons.mp hc' with hceq | hcr
            · subst hceq
              exact ⟨hts, htt⟩
            · exact q2 c' hcr htrim'
          · intro b0' bs0' hb0'
            simp only [Option.some.injEq, Prod.mk.injEq] at hb0'
            obtain ⟨hbe, hse⟩ := hb0'
            subst hbe
            subst hse
            rcases hrepl with hgt | ⟨hteq, hlen⟩
            · refine ⟨by omega, ?_⟩
              intro hcontra
              exact absurd hcontra (by omega)
            · refine ⟨by omega, ?_⟩
              intro htiebs
              have := htt (by omega)
              omega
        · rw [if_neg hrepl] at heq
          push_neg at hrepl
          obtain ⟨hkle, hktie⟩ := hrepl
          have h1' : ∀ b0' bs0',
              (some (b0, bs0) : Option (String × Nat)) = some (b0', bs0') →
              bs0' = computeCandidateScore b0' ∧
              ∀ s ∈ jsTrim c :: seen, computeCandidateScore s ≤ bs0' ∧
                (computeCandidateScore s = bs0' → s.length ≤ b0'.length) := by
            intro b0' bs0' hinj
            simp only [Option.some.injEq, Prod.mk.injEq] at hinj
            obtain ⟨hbe, hse⟩ := hinj
            subst hbe
            subst hse
            refine ⟨hb0s, ?_⟩
            intro s hs
            rcases List.mem_cons.mp hs with hseq | hsmem
            · subst hseq
              exact ⟨hkle, hktie⟩
            · exact hdom s hsmem
          obtain ⟨q1, q2, q3⟩ := ih (jsTrim c :: seen) _ h1'
            (by intro h; exact absurd h (by simp)) b bs heq
          obtain ⟨hble, hbtie⟩ := q3 b0 bs0 rfl
          refine ⟨q1, ?_, ?_⟩
          · intro c' hc' htrim'
            rcases List.mem_cons.mp hc' with hceq | hcr
            · subst hceq
              refine ⟨by omega, ?_⟩
              intro hteq
              have ht1 := hktie (by omega)
              have ht2 := hbtie (by omega)
              omega
            · exact q2 c' hcr htrim'
          · intro b0' bs0' hb0'
            simp only [Option.some.injEq, Prod.mk.injEq] at hb0'
            obtain ⟨hbe, hse⟩ := hb0'
            subst hbe
            subst hse
            exact ⟨hble, hbtie⟩

/-- **C6.** Caption extraction precedence and scoring: a direct
`serverContent.outputTranscription.text` string is returned as-is;
otherwise the walk's candidates are collected and the best-scored
(longer on score ties) trimmed candidate is returned, the score being
`computeCandidateScore` (length, +10 terminal ending, +2 whitespace,
+1 CJK); in particular the payload
`{outputs:[{text:"？"},{text:"おはようございます。"},{text:"お"}]}` yields
`"おはようございます。"`. -/
theorem caption_extraction_precedence_and_scoring :
    (∀ (fields : List (String × JsonValue)) (t : String),
      getNestedString (.obj fields)
        ["serverContent", "outputTranscription", "text"] = some t →
      extractCaption (.obj fields) = some t) ∧
    (∀ (fields : List (String × JsonValue)),
      getNestedString (.obj fields)
        ["serverContent", "outputTranscription", "text"] = none →
      extractCaption (.obj fields) =
        selectBestCandidate (collectTextCandidates (.obj fields) 0)) ∧
    (∀ (cands : List String) (b : String), selectBestCandidate cands = some b →
      ∀ c ∈ cands, jsTrim c ≠ "" →
        computeCandidateScore (jsTrim c) ≤ computeCandidateScore b ∧
        (computeCandidateScore (jsTrim c) = computeCandidateScore b →
          (jsTrim c).length ≤ b.length)) ∧
    extractCaption payloadOutputs = some "おはようございます。" := by
  refine ⟨?_, ?_, ?_, by decide⟩
  · intro fields t hget
    unfold extractCaption
    rw [hget]
  · intro fields hget
    unfold extractCaption
    rw [hget]
  · intro cands b hsel c hc htrim
    unfold selectBestCandidate at hsel
    cases hbl : selectBestLoop cands [] none with
    | none =>
      rw [hbl] at hsel
      cases hsel
    | some p =>
      obtain ⟨b1, bs1⟩ := p
      rw [hbl] at hsel
      have hb : b1 = b := by simpa using hsel
      subst hb
      obtain ⟨q1, q2, _⟩ := selectBestLoop_spec cands [] none
        (by intro b0 bs0 h; exact absurd h (by simp)) (fun _ => rfl) b1 bs1 hbl
      have hq := q2 c hc htrim
      rw [q1] at hq
      exact hq

/-- **C6 (witness).** The precedence and scoring theorem applied to
concrete payloads: a direct transcript string, a payload with no direct
string, the scoring bound inside the `outputs` candidate list, and the
scenario payload itself. -/
theorem caption_extraction_precedence_and_scoring_witness :
    (extractCaption (.obj [("serverContent", .obj [("outputTranscription",
        .obj [("text", .str "あいさつ")])])]) = some "あいさつ") ∧
    (extractCaption (.obj [("other", .str "ことば。")]) =
      selectBestCandidate
        (collectTextCandidates (.obj [("other", .str "ことば。")]) 0)) ∧
    (computeCandidateScore (jsTrim "？") ≤
        computeCandidateScore "おはようございます。" ∧
      (computeCandidateScore (jsTrim "？") =
          computeCandidateScore "おはようございます。" →
        (jsTrim "？").length ≤ ("おはようございます。" : String).length)) ∧
    extractCaption payloadOutputs = some "おはようございます。" := by
  have h := caption_extraction_precedence_and_scoring
  exact ⟨h.1 [("serverContent", .obj [("outputTranscription",
      .obj [("text", .str "あいさつ")])])] "あいさつ" (by decide),
    h.2.1 [("other", .str "ことば。")] (by decide),
    h.2.2.1 ["？", "おはようございます。", "お"] "おはようございます。"
      (by decide) "？" (by decide) (by decide),
    h.2.2.2⟩

/-! ### C7 — segmenter totality and the odd-length chunk throw -/

/-- **C7 (counterexample).** The claim "the segmenter never throws, for
every list of audio chunk buffers including odd byte lengths" fails: a
single one-byte chunk makes `ingestAudioChunk` call `readInt16LE` at
offset 0 of a length-1 buffer, which throws `ERR_OUT_OF_RANGE`
(modelled as `Except.error`), and `handleUpstreamPayload` propagates it. -/
theorem odd_chunk_error_counterexample :
    handleUpstreamPayload none [[0]] segmenterCfgA = .error () := by
  rfl

/-- **C7 (amended).** For every payload and every list of chunks whose
byte lengths are all even, `handleUpstreamPayload` returns normally; and
`forceCompleteTurn` (which ingests no audio chunk) is exactly
`finalizeTurnInternal true` on every state. -/
theorem segmenter_total_on_even_chunks (payload : Option JsonValue)
    (chunks : List ByteBuf) (st : SegState)
    (heven : ∀ b ∈ chunks, b.length % 2 = 0) :
    (∃ evs gc st', handleUpstreamPayload payload chunks st = .ok (evs, gc, st')) ∧
    forceCompleteTurn st = finalizeTurnInternal true st := by
  refine ⟨?_, rfl⟩
  unfold handleUpstreamPayload
  dsimp only
  obtain ⟨stMid, hch⟩ := ingestAudioChunks_even_ok chunks heven
    (enqueuePartialIfNeeded false (ingestTranscript payload st))
  rw [hch]
  simp only [Bind.bind, Except.bind]
  rcases hfl : flushPending false stMid with ⟨evsF, stF⟩
  exact ⟨evsF, _, stF, rfl⟩

/-- **C7 (witness).** The amended totality applied to one even-length
(two-byte) chunk. -/
theorem segmenter_total_on_even_chunks_witness :
    (∃ evs gc st',
      handleUpstreamPayload none [[0, 0]] segmenterCfgA = .ok (evs, gc, st')) ∧
    forceCompleteTurn segmenterCfgA = finalizeTurnInternal true segmenterCfgA :=
  segmenter_total_on_even_chunks none [[0, 0]] segmenterCfgA (by decide)

end Denwa
